import Mathlib

/-!
Verification development for the client-side task-list application
(`src/js/main.js`: IndexedDB-backed Task Repository; `src/js/script.js`:
markup formatter `parseMarkdown`).

Shallow embedding conventions:
* Task items are typed records (`Todo`).  Raw records read back from the
  persistent store may miss fields, so stored records (`StoredTodo`) carry
  `Option` fields; JavaScript falsiness of a missing field corresponds to
  `none`, falsiness of the empty string is modelled explicitly.
* ISO-8601 timestamp strings are modelled by their epoch-millisecond value
  (`Nat`); `new Date(s)` applied to such a string is monotone, so comparisons
  of `Date` values become comparisons of the `Nat` model.
* The `todos` object store (keyed by `id`, `put` = upsert by key) is a list
  of records with upsert/delete helpers; record order inside the store is
  irrelevant to every claim (the spec leaves it unspecified at this layer).
* Promise-returning operations that can throw synchronously return `Option`
  (`none` = rejected with the validation error).  `loadTodos` takes the
  outcome of the underlying `getAll` read as an `Except` parameter.
* The `settings` collection, `localStorage`, and theme helpers are not
  touched by any claim and are omitted.
-/

/-- A fully-populated task item, as produced by the UI and kept in the
in-memory `todos` cache of `main.js`. -/
structure Todo where
  id : String
  title : String
  description : String
  notes : String
  priority : String
  completed : Bool
  selected : Bool
  createdAt : Nat
  updatedAt : Nat
deriving DecidableEq, Repr

/-- A raw record as read back from the `todos` object store.  Legacy records
may miss fields (`none`); `loadTodos` normalizes them. -/
structure StoredTodo where
  id : String
  title : Option String
  description : Option String
  notes : Option String
  priority : Option String
  completed : Option Bool
  selected : Option Bool
  createdAt : Option Nat
  updatedAt : Option Nat
deriving DecidableEq, Repr

/-- Writing a fully-populated item to the store keeps every field. -/
def toStored (t : Todo) : StoredTodo :=
  { id := t.id, title := some t.title, description := some t.description,
    notes := some t.notes, priority := some t.priority,
    completed := some t.completed, selected := some t.selected,
    createdAt := some t.createdAt, updatedAt := some t.updatedAt }

/-- JavaScript `x || d` for an optional string field: a missing field and the
empty string are both falsy. -/
def jsOr (o : Option String) (d : String) : String :=
  match o with
  | none => d
  | some s => if s = "" then d else s

/-- The normalization applied by `loadTodos` (main.js lines 138-148) to each
record read from storage: `String(t.id)`, `t.title || ""`,
`t.priority || "medium"`, `!!t.completed`, `!!t.selected`,
`t.createdAt || now`, `t.updatedAt || t.createdAt || now`. -/
def normalizeTodo (now : Nat) (t : StoredTodo) : Todo :=
  { id := t.id,
    title := jsOr t.title "",
    description := jsOr t.description "",
    notes := jsOr t.notes "",
    priority := jsOr t.priority "medium",
    completed := t.completed.getD false,
    selected := t.selected.getD false,
    createdAt := t.createdAt.getD now,
    updatedAt :=
      match t.updatedAt with
      | some u => u
      | none => t.createdAt.getD now }

/-- The sort comparator of `loadTodos`:
`(a, b) => new Date(b.createdAt) - new Date(a.createdAt)`, i.e. `a` comes
before `b` when `b.createdAt ≤ a.createdAt` (descending). -/
def createdGe (a b : Todo) : Prop := b.createdAt ≤ a.createdAt

instance : DecidableRel createdGe := fun a b => Nat.decLe b.createdAt a.createdAt

instance : IsTotal Todo createdGe := ⟨fun a b => Nat.le_total b.createdAt a.createdAt⟩

instance : IsTrans Todo createdGe := ⟨fun _ _ _ h₁ h₂ => Nat.le_trans h₂ h₁⟩

/-- The module state of `main.js`: the persistent `todos` object store and the
in-memory `todos` cache. -/
structure RepoState where
  store : List StoredTodo
  todos : List Todo
deriving DecidableEq, Repr

/-- Initial state: empty database, empty cache. -/
def initState : RepoState := { store := [], todos := [] }

/-- IndexedDB `store.put(value)`: upsert keyed by `id`. -/
def dbPut (store : List StoredTodo) (v : StoredTodo) : List StoredTodo :=
  if store.any (fun r => r.id == v.id) then
    store.map (fun r => if r.id == v.id then v else r)
  else
    store ++ [v]

/-- IndexedDB `store.delete(key)`: removes the record with that key;
no error if absent. -/
def dbDelete (store : List StoredTodo) (key : String) : List StoredTodo :=
  store.filter (fun r => !(r.id == key))

/-- `loadTodos` (main.js lines 134-157): maps the raw read result through
normalization and sorts by `createdAt` descending; on a failed read it
swallows the error and yields the empty list.  JavaScript `Array.sort` with a
numeric comparator produces a stable, sorted permutation; `insertionSort`
is a stable sort, so it is a faithful model for the properties used here
(sortedness and multiset equality). -/
def loadTodosCore (now : Nat) (result : Except String (List StoredTodo)) : List Todo :=
  match result with
  | Except.ok r => List.insertionSort createdGe (r.map (normalizeTodo now))
  | Except.error _ => []

/-- `loadTodos` acting on the module state: replaces the in-memory list
wholesale with the (normalized, sorted) read result and returns it;
`readFails` selects the catch branch. -/
def loadTodos (s : RepoState) (now : Nat) (readFails : Bool) : RepoState × List Todo :=
  let ts := loadTodosCore now
    (if readFails then Except.error "loadTodos error" else Except.ok s.store)
  ({ s with todos := ts }, ts)

/-- `addTodo` (main.js lines 166-172): throws unless the item has a truthy
`id`; otherwise writes through (`putToStore`) and unshifts onto the cache.
`none` models the thrown `Error("todo must have an id")`. -/
def addTodo (s : RepoState) (todo : Todo) : Option RepoState :=
  if todo.id = "" then none
  else some { store := dbPut s.store (toStored todo), todos := todo :: s.todos }

/-- `todos.findIndex(t => t.id === todo.id)` followed by `todos[idx] = todo`:
replace the first entry with a matching id, leave the rest unchanged. -/
def replaceFirstById (t : Todo) : List Todo → List Todo
  | [] => []
  | x :: xs => if x.id == t.id then t :: xs else x :: replaceFirstById t xs

/-- `updateTodo` (main.js lines 174-186): requires a truthy `id`, stamps
`updatedAt = now`, writes through, then replaces the matching in-memory entry
(or unshifts if absent). -/
def updateTodo (s : RepoState) (todo : Todo) (now : Nat) : Option RepoState :=
  if todo.id = "" then none
  else
    let t := { todo with updatedAt := now }
    some { store := dbPut s.store (toStored t),
           todos :=
             if s.todos.any (fun x => x.id == t.id) then replaceFirstById t s.todos
             else t :: s.todos }

/-- `deleteTodo` (main.js lines 188-192): requires a truthy `id`, deletes from
the store, filters the cache. -/
def deleteTodo (s : RepoState) (id : String) : Option RepoState :=
  if id = "" then none
  else some { store := dbDelete s.store id,
              todos := s.todos.filter (fun t => !(t.id == id)) }

/-- `clearCompleted` (main.js lines 197-204): one store delete per completed
item, then filters the cache. -/
def clearCompleted (s : RepoState) : RepoState :=
  let toDelete := (s.todos.filter (fun t => t.completed)).map (fun t => t.id)
  { store := toDelete.foldl dbDelete s.store,
    todos := s.todos.filter (fun t => !t.completed) }

/-- `clearAllData` (main.js lines 206-216): clears the store and the cache
(the `settings` collection and `localStorage` are outside this model). -/
def clearAllData (_s : RepoState) : RepoState :=
  { store := [], todos := [] }

/-- `exportTodosAsJSON` (main.js lines 222-226): the list of items serialized
into the snapshot.  `ids && ids.length ? todos.filter(...) : todos` — `none`
models the omitted argument, and an empty array is falsy via `.length`.
The `JSON.stringify`/`Blob` wrapping is injective serialization and is left
out: the claims are about which items the snapshot contains. -/
def exportTodosAsJSON (s : RepoState) (ids : Option (List String)) : List Todo :=
  match ids with
  | some l => if l.length ≠ 0 then s.todos.filter (fun t => l.contains t.id) else s.todos
  | none => s.todos

/-- One repository mutator call, with the data the caller supplies (`now` is
the clock value `new Date()` observed during the call). -/
inductive Op where
  | add (todo : Todo)
  | update (todo : Todo) (now : Nat)
  | del (id : String)
  | clearCompleted
  | clearAll
  | load (now : Nat) (readFails : Bool)
deriving DecidableEq, Repr

/-- Run one operation; `none` models a thrown validation error. -/
def applyOp (s : RepoState) : Op → Option RepoState
  | Op.add t => addTodo s t
  | Op.update t now => updateTodo s t now
  | Op.del id => deleteTodo s id
  | Op.clearCompleted => some (clearCompleted s)
  | Op.clearAll => some (clearAllData s)
  | Op.load now readFails => some (loadTodos s now readFails).1

/-- Run a sequence of operations; `none` as soon as one throws. -/
def runOps (s : RepoState) : List Op → Option RepoState
  | [] => some s
  | op :: ops =>
    match applyOp s op with
    | some s' => runOps s' ops
    | none => none

/-- Per-operation side conditions under which the `updatedAt ≥ createdAt`
invariant is maintained: an added item must already satisfy it, and an
update must happen at a clock value not before the item's creation time. -/
def opTimeOK : Op → Bool
  | Op.add t => decide (t.createdAt ≤ t.updatedAt)
  | Op.update t now => decide (t.createdAt ≤ now)
  | _ => true

/-- The `updatedAt ≥ createdAt` invariant over the whole state: it holds of
every cached item, and every stored record carries both timestamps in the
right order (so reload normalization preserves it). -/
def stateTimeOK (s : RepoState) : Prop :=
  (∀ t ∈ s.todos, t.createdAt ≤ t.updatedAt) ∧
  (∀ r ∈ s.store, ∃ c u, r.createdAt = some c ∧ r.updatedAt = some u ∧ c ≤ u)

/-- Conditions for the round-trip claim: only `add`/`update`/`delete` calls,
every written item has a valid (`≠ ""`) id and a non-empty `priority` (so
reload normalization is the identity on it), and an added id is fresh. -/
def audOKb (s : RepoState) : Op → Bool
  | Op.add t =>
    (!(t.id == "")) && (!(t.priority == "")) && s.todos.all (fun x => !(x.id == t.id))
  | Op.update t _ => (!(t.id == "")) && (!(t.priority == ""))
  | Op.del id => !(id == "")
  | _ => false

/-- A sequence of calls that all satisfy `audOKb` at the state they run in
(and all succeed). -/
def goodSeqB (s : RepoState) : List Op → Bool
  | [] => true
  | op :: ops =>
    audOKb s op &&
      (match applyOp s op with
       | some s' => goodSeqB s' ops
       | none => false)

/-- The coherence invariant between cache and store that write-through
maintains: the store holds exactly the cached items (as a multiset), cached
ids are distinct, and every cached item survives normalization unchanged. -/
def syncedOK (s : RepoState) : Prop :=
  s.store.Perm (s.todos.map toStored) ∧
  (s.todos.map Todo.id).Nodup ∧
  ∀ t ∈ s.todos, t.priority ≠ ""

/-!
### Event model for the Persistent Store Adapter promises (claim C1)

An IndexedDB request fires `success` or `error`; its transaction afterwards
fires `complete` or is aborted and fires `error` on the transaction.  A
transaction can abort (e.g. quota failure at commit) after the request
already fired `success`.  A promise settles on the first event for which the
executor installed a handler (`putToStore` etc. install handlers only on the
request, main.js lines 88-125; `withStore` installs handlers only on the
transaction, lines 50-61, with a `called` flag giving first-event-wins).
-/

/-- The observable events of a single-request readwrite/readonly transaction,
in the order they fire. -/
inductive IDBEvent where
  | reqSuccess
  | reqError
  | txComplete
  | txError
deriving DecidableEq, Repr

/-- How a promise settles. -/
inductive Settled where
  | resolved
  | rejected
deriving DecidableEq, Repr

/-- A promise settles on the first event its executor handles. -/
def settle (handlers : IDBEvent → Option Settled) : List IDBEvent → Option Settled
  | [] => none
  | e :: es =>
    match handlers e with
    | some o => some o
    | none => settle handlers es

/-- Handlers installed by `putToStore`, `deleteFromStore`, `clearStore` and
`getAllFromStore`: `req.onsuccess = resolve`, `req.onerror = reject`;
nothing is attached to the transaction. -/
def requestHandlers : IDBEvent → Option Settled
  | IDBEvent.reqSuccess => some Settled.resolved
  | IDBEvent.reqError => some Settled.rejected
  | _ => none

/-- Handlers installed by `withStore`: `tx.oncomplete = resolve`,
`tx.onerror = reject`; nothing is attached to the individual request. -/
def txHandlers : IDBEvent → Option Settled
  | IDBEvent.txComplete => some Settled.resolved
  | IDBEvent.txError => some Settled.rejected
  | _ => none

/-- Outcome of the promise returned by `putToStore` (main.js lines 88-99)
on a given event trace. -/
def putToStoreOutcome (events : List IDBEvent) : Option Settled :=
  settle requestHandlers events

/-- Outcome of the promise returned by `deleteFromStore` (lines 101-112). -/
def deleteFromStoreOutcome (events : List IDBEvent) : Option Settled :=
  settle requestHandlers events

/-- Outcome of the promise returned by `clearStore` (lines 114-125). -/
def clearStoreOutcome (events : List IDBEvent) : Option Settled :=
  settle requestHandlers events

/-- Outcome of the promise returned by `getAllFromStore` (lines 75-86). -/
def getAllFromStoreOutcome (events : List IDBEvent) : Option Settled :=
  settle requestHandlers events

/-- Outcome of the promise returned by `withStore` (lines 42-73). -/
def withStoreOutcome (events : List IDBEvent) : Option Settled :=
  settle txHandlers events

/-- The event traces a single-request transaction can produce: the request
settles first, then the transaction commits or aborts; a request error
aborts the transaction (the code never calls `preventDefault`). -/
def validTrace (events : List IDBEvent) : Bool :=
  (events == [IDBEvent.reqSuccess, IDBEvent.txComplete]) ||
  (events == [IDBEvent.reqSuccess, IDBEvent.txError]) ||
  (events == [IDBEvent.reqError, IDBEvent.txError])

/-- Whether the transaction committed in a trace. -/
def txCommitted (events : List IDBEvent) : Bool :=
  events.contains IDBEvent.txComplete

/-!
### Concrete data used by counterexamples and witnesses
-/

/-- A well-formed item. -/
def tdA : Todo :=
  { id := "a", title := "alpha", description := "", notes := "",
    priority := "medium", completed := false, selected := false,
    createdAt := 10, updatedAt := 10 }

/-- A second well-formed item, younger than `tdA`. -/
def tdB : Todo :=
  { id := "b", title := "beta", description := "d", notes := "n",
    priority := "high", completed := true, selected := false,
    createdAt := 20, updatedAt := 20 }

/-- An item whose caller-supplied timestamps are inverted
(`updatedAt < createdAt`). -/
def tdBad : Todo :=
  { id := "bad", title := "bad", description := "", notes := "",
    priority := "medium", completed := false, selected := false,
    createdAt := 5, updatedAt := 1 }

/-- An item reusing `tdA`'s id with different fields. -/
def tdA2 : Todo :=
  { id := "a", title := "alpha two", description := "", notes := "",
    priority := "low", completed := false, selected := false,
    createdAt := 30, updatedAt := 30 }

/-- An item with a valid id but an empty title. -/
def tdNoTitle : Todo :=
  { id := "nt", title := "", description := "", notes := "",
    priority := "medium", completed := false, selected := false,
    createdAt := 40, updatedAt := 40 }

/-- A state holding `tdA` alone, in cache and store. -/
def sA : RepoState := { store := [toStored tdA], todos := [tdA] }

/-- A state holding `tdA` and `tdB`, in cache and store. -/
def sAB : RepoState :=
  { store := [toStored tdA, toStored tdB], todos := [tdA, tdB] }

/-- Operation sequence used by the C3 witness. -/
def c3ops : List Op :=
  [Op.add tdA, Op.update tdA2 50, Op.load 60 false, Op.del "zz", Op.clearCompleted]

/-- Final state of the C3 witness run. -/
def c3final : RepoState := (runOps initState c3ops).getD initState

/-- An item present in the C3 witness final state. -/
def c3item : Todo := c3final.todos.headD tdA

/-- Operation sequence used by the C4 witness. -/
def c4ops : List Op := [Op.add tdA, Op.add tdB, Op.update tdA2 35, Op.del "b"]

/-- Final state of the C4 witness run. -/
def c4final : RepoState := (runOps initState c4ops).getD initState

/-- Final state of the C4 counterexample run (duplicate-id adds). -/
def c4bad : RepoState :=
  (runOps initState [Op.add tdA, Op.add tdA2]).getD initState

/-!
### Markup formatter (script.js: `parseMarkdown`, `convertTables`,
`processTable`)

Strings are embedded as `List Char`.  Each regex-replace pass is a
left-to-right scanner following the JS regex semantics: the scanner advances
one character when no match starts at the current position and continues
right after the replacement on a match; lazy groups take the shortest
extension, `.` does not match line terminators, and character classes do not
backtrack into disjoint following parts.  Scanners whose recursion is not
structural carry a fuel argument; every scanning step consumes at least one
input character, so fuel = input length suffices and the fuel-0 branch
(which returns the rest unscanned) is never reached from the wrappers.
-/

/-- JS line terminators, excluded by `.` in regexes. -/
def isLineTerm (c : Char) : Bool :=
  c == '\n' || c == '\r' || c == ' ' || c == ' '

/-- The JS `\s` whitespace class (code points relevant to these inputs). -/
def jsWs (c : Char) : Bool :=
  c == ' ' || c == '\t' || c == '\n' || c == '\r' || c == '\x0b' || c == '\x0c' ||
  c == ' ' || c == ' ' || c == ' ' || c == '﻿'

/-- `String.prototype.replace` with a global single-character pattern. -/
def replaceAllChar (c : Char) (r : List Char) : List Char → List Char
  | [] => []
  | x :: xs => if x == c then r ++ replaceAllChar c r xs else x :: replaceAllChar c r xs

/-- Step 1 of `parseMarkdown`:
`md.replace(/</g, "&lt;").replace(/>/g, "&gt;")`. -/
def escapeAngle (s : List Char) : List Char :=
  replaceAllChar '>' ("&gt;".toList) (replaceAllChar '<' ("&lt;".toList) s)

/-- Lazy search for the closing `**` of a bold span: the shortest split
`u = X ++ "**" ++ rest`, `X` free of line terminators (JS `.`). -/
def boldCloseAux : List Char → Option (List Char × List Char)
  | '*' :: '*' :: rest => some ([], rest)
  | c :: cs =>
    if isLineTerm c then none
    else (boldCloseAux cs).map (fun p => (c :: p.1, p.2))
  | [] => none

/-- The lazy `(.+?)` of the bold regex: at least one character. -/
def boldClose : List Char → Option (List Char × List Char)
  | [] => none
  | c :: cs =>
    if isLineTerm c then none
    else (boldCloseAux cs).map (fun p => (c :: p.1, p.2))

/-- Fueled scan of `html.replace(/\*\*(.+?)\*\*/g, "<strong>$1</strong>")`. -/
def boldPassF : Nat → List Char → List Char
  | 0, s => s
  | _ + 1, [] => []
  | f + 1, '*' :: '*' :: rest =>
    (match boldClose rest with
     | some (x, rest') =>
       "<strong>".toList ++ x ++ "</strong>".toList ++ boldPassF f rest'
     | none => '*' :: boldPassF f ('*' :: rest))
  | f + 1, c :: cs => c :: boldPassF f cs

/-- Step 2 of `parseMarkdown`: the bold pass. -/
def boldPass (s : List Char) : List Char := boldPassF s.length s

/-- Lazy search for the closing `\*(?!\*)` of an italic span, the span rest
allowed empty: on `*` followed by another `*` the lookahead fails and the
star is absorbed into the span text (backtracking of the lazy group). -/
def italicCloseAux : List Char → Option (List Char × List Char)
  | '*' :: rest =>
    if rest.head? == some '*' then
      (italicCloseAux rest).map (fun p => ('*' :: p.1, p.2))
    else some ([], rest)
  | c :: cs =>
    if isLineTerm c then none
    else (italicCloseAux cs).map (fun p => (c :: p.1, p.2))
  | [] => none

/-- The lazy `(.+?)` of the italic regex: at least one character (its first
character is never `*`, by the opener's `(?!\*)` lookahead). -/
def italicClose : List Char → Option (List Char × List Char)
  | [] => none
  | c :: cs =>
    if isLineTerm c then none
    else (italicCloseAux cs).map (fun p => (c :: p.1, p.2))

/-- Fueled scan of
`html.replace(/(^|[^*])\*(?!\*)(.+?)\*(?!\*)/g, "$1<em>$2</em>")` at
positions past the start: a match consumes a non-`*` character (group 1),
a `*` not followed by `*`, the lazy span, and its closing star. -/
def italicLoopF : Nat → List Char → List Char
  | 0, s => s
  | _ + 1, [] => []
  | f + 1, g :: '*' :: u =>
    if g != '*' && u.head? != some '*' then
      (match italicClose u with
       | some (x, rest) =>
         g :: ("<em>".toList ++ x ++ "</em>".toList ++ italicLoopF f rest)
       | none => g :: italicLoopF f ('*' :: u))
    else g :: italicLoopF f ('*' :: u)
  | f + 1, c :: cs => c :: italicLoopF f cs

/-- The italic scan from a non-start position. -/
def italicLoop (s : List Char) : List Char := italicLoopF s.length s

/-- Step 3 of `parseMarkdown`: the italic pass; at position 0 the `^`
alternative allows a match with an empty group 1. -/
def italicPass (s : List Char) : List Char :=
  match s with
  | '*' :: u =>
    if u.head? == some '*' then italicLoop s
    else
      (match italicClose u with
       | some (x, rest) => "<em>".toList ++ x ++ "</em>".toList ++ italicLoop rest
       | none => italicLoop s)
  | _ => italicLoop s

/-- Lazy search for the closing `==` of a highlight span (`(.*?)`: the span
may be empty). -/
def markClose : List Char → Option (List Char × List Char)
  | '=' :: '=' :: rest => some ([], rest)
  | c :: cs =>
    if isLineTerm c then none
    else (markClose cs).map (fun p => (c :: p.1, p.2))
  | [] => none

/-- Fueled scan of `html.replace(/==(.*?)==/g, "<mark>$1</mark>")`. -/
def markPassF : Nat → List Char → List Char
  | 0, s => s
  | _ + 1, [] => []
  | f + 1, '=' :: '=' :: rest =>
    (match markClose rest with
     | some (x, rest') => "<mark>".toList ++ x ++ "</mark>".toList ++ markPassF f rest'
     | none => '=' :: markPassF f ('=' :: rest))
  | f + 1, c :: cs => c :: markPassF f cs

/-- Step 4 of `parseMarkdown`: the highlight pass. -/
def markPass (s : List Char) : List Char := markPassF s.length s

/-- Boolean prefix test. -/
def hasPre : List Char → List Char → Bool
  | [], _ => true
  | _ :: _, [] => false
  | p :: ps, u :: us => p == u && hasPre ps us

/-- `https?:\/\/`: strip the protocol, returning it and the rest. -/
def stripHttp (u : List Char) : Option (List Char × List Char) :=
  if hasPre "https://".toList u then some ("https://".toList, u.drop 8)
  else if hasPre "http://".toList u then some ("http://".toList, u.drop 7)
  else none

/-- The url tail class `[^\s)"]`. -/
def urlChar (c : Char) : Bool := !(jsWs c || c == ')' || c == '"')

/-- Try to match the link regex after an opening `[`:
`([^\]]+)\]\((https?:\/\/[^\s)"]+)\)`; both classes are greedy and disjoint
from what follows them, so each takes its maximal run. -/
def tryLink (u : List Char) : Option (List Char × List Char × List Char) :=
  let text := u.takeWhile (fun c => c != ']')
  let u₁ := u.dropWhile (fun c => c != ']')
  if text.isEmpty then none
  else
    match u₁ with
    | ']' :: '(' :: u₂ =>
      (match stripHttp u₂ with
       | some (proto, u₃) =>
         let urlTail := u₃.takeWhile urlChar
         let u₄ := u₃.dropWhile urlChar
         if urlTail.isEmpty then none
         else
           (match u₄ with
            | ')' :: rest => some (text, proto ++ urlTail, rest)
            | _ => none)
       | none => none)
    | _ => none

/-- The replacement of the link pass: quotes in the label become `&quot;`,
quotes in the url become `%22` (the url class excludes quotes, so the latter
is the identity on matches). -/
def linkAnchor (text url : List Char) : List Char :=
  "<a href=\"".toList ++ replaceAllChar '"' ("%22".toList) url ++
  "\" target=\"_blank\" rel=\"noopener noreferrer\">".toList ++
  replaceAllChar '"' ("&quot;".toList) text ++ "</a>".toList

/-- Fueled scan of the link replacement pass. -/
def linkPassF : Nat → List Char → List Char
  | 0, s => s
  | _ + 1, [] => []
  | f + 1, '[' :: rest =>
    (match tryLink rest with
     | some (text, url, rest') => linkAnchor text url ++ linkPassF f rest'
     | none => '[' :: linkPassF f rest)
  | f + 1, c :: cs => c :: linkPassF f cs

/-- Step 5 of `parseMarkdown`: the link pass. -/
def linkPass (s : List Char) : List Char := linkPassF s.length s

/-- `text.split(/\r?\n/)`. -/
def splitLines : List Char → List (List Char)
  | [] => [[]]
  | '\r' :: '\n' :: rest => [] :: splitLines rest
  | '\n' :: rest => [] :: splitLines rest
  | c :: cs =>
    match splitLines cs with
    | l :: ls => (c :: l) :: ls
    | [] => [[c]]

/-- Scan for a pipe followed only by whitespace, any non-line-terminator
characters allowed before it: the `.*\|\s*$` tail of the table-line test. -/
def tailPipeWs : List Char → Bool
  | [] => false
  | '|' :: rest => rest.all jsWs || tailPipeWs rest
  | c :: cs => if isLineTerm c then false else tailPipeWs cs

/-- `/^\s*\|.*\|\s*$/.test(line)`. -/
def isTableLine (l : List Char) : Bool :=
  match l.dropWhile jsWs with
  | '|' :: r => tailPipeWs r
  | _ => false

/-- One `(\s*[-:]{3,}\s*\|)` group of the separator pattern. -/
def sepCell (u : List Char) : Option (List Char) :=
  let u₁ := u.dropWhile jsWs
  let dashes := u₁.takeWhile (fun c => c == '-' || c == ':')
  let u₂ := u₁.dropWhile (fun c => c == '-' || c == ':')
  if dashes.length < 3 then none
  else
    match u₂.dropWhile jsWs with
    | '|' :: r => some r
    | _ => none

/-- Fueled `(group)+ \s* $` loop of the separator pattern. -/
def sepLoopF : Nat → List Char → Bool
  | 0, _ => false
  | f + 1, u =>
    match sepCell u with
    | some r => r.all jsWs || sepLoopF f r
    | none => false

/-- `/^\s*\|(\s*[-:]{3,}\s*\|)+\s*$/.test(line)`. -/
def isSeparatorLine (l : List Char) : Bool :=
  match l.dropWhile jsWs with
  | '|' :: r => sepLoopF r.length r
  | _ => false

/-- `line.split("|")`. -/
def splitOnPipe : List Char → List (List Char)
  | [] => [[]]
  | '|' :: cs => [] :: splitOnPipe cs
  | c :: cs =>
    match splitOnPipe cs with
    | l :: ls => (c :: l) :: ls
    | [] => [[c]]

/-- `.slice(1, -1)`: drop the segment before the first pipe and the segment
after the last pipe. -/
def sliceCells (ps : List (List Char)) : List (List Char) := (ps.drop 1).dropLast

/-- `String.prototype.trim`. -/
def jsTrim (l : List Char) : List Char :=
  ((l.dropWhile jsWs).reverse.dropWhile jsWs).reverse

/-- `Array.prototype.join("\n")`. -/
def joinNL : List (List Char) → List Char
  | [] => []
  | [p] => p
  | p :: q :: ps => p ++ '\n' :: joinNL (q :: ps)

/-- `Array.prototype.join("")`. -/
def joinAll : List (List Char) → List Char
  | [] => []
  | p :: ps => p ++ joinAll ps

/-- `processTable(buffer)` (script.js lines 228-257): under 2 lines, or an
invalid separator line, the buffer is emitted verbatim; otherwise line 0
gives the header cells and lines 2.. give the body rows, with leading and
trailing split segments discarded and cell text trimmed. -/
def processTable (buffer : List (List Char)) : List Char :=
  match buffer with
  | b₀ :: b₁ :: rows =>
    if isSeparatorLine b₁ then
      "<table>".toList ++
        ("<thead><tr>".toList ++
          joinAll ((sliceCells (splitOnPipe b₀)).map
            (fun c => "<th>".toList ++ jsTrim c ++ "</th>".toList)) ++
          "</tr></thead>".toList) ++
        ("<tbody>".toList ++
          joinAll (rows.map (fun line =>
            "<tr>".toList ++
            joinAll ((sliceCells (splitOnPipe line)).map
              (fun c => "<td>".toList ++ jsTrim c ++ "</td>".toList)) ++
            "</tr>".toList)) ++
          "</tbody>".toList) ++
        "</table>".toList
    else joinNL buffer
  | _ => joinNL buffer

/-- The buffering loop of `convertTables` (script.js lines 198-226); `none`
models an empty buffer. -/
def convLines : Option (List (List Char)) → List (List Char) → List (List Char)
  | none, [] => []
  | some b, [] => [processTable b]
  | none, l :: ls =>
    if isTableLine l then convLines (some [l]) ls else l :: convLines none ls
  | some b, l :: ls =>
    if isTableLine l then convLines (some (b ++ [l])) ls
    else processTable b :: l :: convLines none ls

/-- Step 6 of `parseMarkdown`: `convertTables(text)`. -/
def convertTables (text : List Char) : List Char :=
  joinNL (convLines none (splitLines text))

/-- `parseMarkdown(md)` (script.js lines 160-189): escape angle brackets,
then bold, italic, highlight, links, tables.  The empty list models falsy
input, returning the empty result (non-string input is outside the typed
embedding). -/
def parseMarkdown (md : List Char) : List Char :=
  if md.isEmpty then []
  else convertTables (linkPass (markPass (italicPass (boldPass (escapeAngle md)))))

/-- The three-line table input of claim C2, with its single-dash separator
line. -/
def c2input : List Char := "| A | B |\n| - | - |\n| 1 | 2 |".toList

/-- The same input with three-dash separator cells (the shortest runs the
code's `[-:]{3,}` separator pattern accepts). -/
def c2input3 : List Char := "| A | B |\n| --- | --- |\n| 1 | 2 |".toList

/-- The table output produced for `c2input3`. -/
def c2expected : List Char :=
  ("<table><thead><tr><th>A</th><th>B</th></tr></thead>" ++
   "<tbody><tr><td>1</td><td>2</td></tr></tbody></table>").toList

/-!
### Theorems
-/

/-- Membership in the result of `dbPut`. -/
theorem mem_dbPut {store : List StoredTodo} {v r : StoredTodo}
    (h : r ∈ dbPut store v) : r = v ∨ r ∈ store := by
  unfold dbPut at h
  by_cases hany : store.any (fun x => x.id == v.id)
  · rw [if_pos hany] at h
    rcases List.mem_map.1 h with ⟨x, hx, hxe⟩
    by_cases hid : x.id == v.id
    · left; rw [if_pos hid] at hxe; exact hxe.symm
    · right; rw [if_neg hid] at hxe; exact hxe ▸ hx
  · rw [if_neg hany] at h
    rcases List.mem_append.1 h with hx | hx
    · exact Or.inr hx
    · exact Or.inl (List.mem_singleton.1 hx)

/-- Membership in the result of `dbDelete`. -/
theorem mem_dbDelete {store : List StoredTodo} {key : String} {r : StoredTodo}
    (h : r ∈ dbDelete store key) : r ∈ store :=
  List.mem_of_mem_filter h

/-- Membership after a fold of `dbDelete`s. -/
theorem mem_foldl_dbDelete {keys : List String} {store : List StoredTodo} {r : StoredTodo}
    (h : r ∈ keys.foldl dbDelete store) : r ∈ store := by
  induction keys generalizing store with
  | nil => exact h
  | cons k ks ih => exact mem_dbDelete (ih h)

/-- Membership in the result of `replaceFirstById`. -/
theorem mem_replaceFirstById {t r : Todo} {l : List Todo}
    (h : r ∈ replaceFirstById t l) : r = t ∨ r ∈ l := by
  induction l with
  | nil => simp [replaceFirstById] at h
  | cons x xs ih =>
    unfold replaceFirstById at h
    by_cases hid : x.id == t.id
    · rw [if_pos hid] at h
      rcases List.mem_cons.1 h with he | hm
      · exact Or.inl he
      · exact Or.inr (List.mem_cons_of_mem _ hm)
    · rw [if_neg hid] at h
      rcases List.mem_cons.1 h with he | hm
      · exact Or.inr (he ▸ List.mem_cons_self _ _)
      · rcases ih hm with h1 | h2
        · exact Or.inl h1
        · exact Or.inr (List.mem_cons_of_mem _ h2)

/-- C7: when the storage read fails, `loadTodos` does not propagate the
error: it resets the in-memory list to empty and returns an empty list, so a
caller observes "list is empty" rather than a thrown error. -/
theorem loadTodos_swallows_read_failure (s : RepoState) (now : Nat) :
    (loadTodos s now true).1.todos = [] ∧ (loadTodos s now true).2 = [] :=
  ⟨rfl, rfl⟩

/-- C9: `addTodo` rejects exactly when the id is empty; with a non-empty id it
always succeeds — writing through to storage and unshifting onto the
in-memory list — regardless of the title, so an empty or blank title is
accepted (the repository does not enforce the non-empty-title rule). -/
theorem addTodo_reject_iff (s : RepoState) (t : Todo) :
    (addTodo s t = none ↔ t.id = "") ∧
    (t.id ≠ "" →
      addTodo s t = some { store := dbPut s.store (toStored t), todos := t :: s.todos }) := by
  constructor
  · constructor
    · intro h
      by_contra hid
      simp [addTodo, hid] at h
    · intro h
      simp [addTodo, h]
  · intro h
    simp [addTodo, h]

/-- Witness for C9 at a concrete blank-title item. -/
theorem addTodo_reject_iff_witness :
    addTodo initState tdNoTitle =
      some { store := dbPut initState.store (toStored tdNoTitle),
             todos := tdNoTitle :: initState.todos } :=
  (addTodo_reject_iff initState tdNoTitle).2 (by decide)

/-- C10: `deleteTodo` and `clearCompleted` filter the in-memory list: each
surviving item is kept unchanged and the survivors keep their relative order
(the surviving lists are sublists of the original). -/
theorem delete_clearCompleted_frame (s : RepoState) (id : String) (h : id ≠ "") :
    deleteTodo s id =
      some { store := dbDelete s.store id,
             todos := s.todos.filter (fun t => !(t.id == id)) } ∧
    (s.todos.filter (fun t => !(t.id == id))).Sublist s.todos ∧
    (clearCompleted s).todos = s.todos.filter (fun t => !t.completed) ∧
    (s.todos.filter (fun t => !t.completed)).Sublist s.todos :=
  ⟨by simp [deleteTodo, h], List.filter_sublist _, rfl, List.filter_sublist _⟩

/-- Witness for C10 at a concrete state. -/
theorem delete_clearCompleted_frame_witness :
    deleteTodo sAB "a" =
      some { store := dbDelete sAB.store "a",
             todos := sAB.todos.filter (fun t => !(t.id == "a")) } ∧
    (sAB.todos.filter (fun t => !(t.id == "a"))).Sublist sAB.todos ∧
    (clearCompleted sAB).todos = sAB.todos.filter (fun t => !t.completed) ∧
    (sAB.todos.filter (fun t => !t.completed)).Sublist sAB.todos :=
  delete_clearCompleted_frame sAB "a" (by decide)

/-- C8 counterexample: with an explicitly empty identifier set the snapshot
contains all items, not none — `ids.length` is falsy for `[]`, so the code
falls back to exporting everything. -/
theorem exportTodosAsJSON_empty_ids_cex :
    exportTodosAsJSON sA (some []) = [tdA] ∧ exportTodosAsJSON sA (some []) ≠ [] :=
  ⟨rfl, by decide⟩

/-- C8 amended: for a non-empty identifier set the snapshot is the filter of
the list by id membership — it contains exactly the items whose id belongs to
the set; with no set, or with an empty set, it contains all items. -/
theorem exportTodosAsJSON_spec (s : RepoState) (l : List String) :
    exportTodosAsJSON s none = s.todos ∧
    exportTodosAsJSON s (some []) = s.todos ∧
    (l ≠ [] →
      exportTodosAsJSON s (some l) = s.todos.filter (fun t => l.contains t.id) ∧
      ∀ t, t ∈ exportTodosAsJSON s (some l) ↔ t ∈ s.todos ∧ t.id ∈ l) := by
  refine ⟨rfl, rfl, fun h => ?_⟩
  have hl : l.length ≠ 0 := fun hh => h (List.length_eq_zero.1 hh)
  refine ⟨by simp [exportTodosAsJSON, hl], fun t => ?_⟩
  simp [exportTodosAsJSON, hl, List.mem_filter]

/-- Witness for C8 at a concrete selection. -/
theorem exportTodosAsJSON_spec_witness :
    (["a"] : List String) ≠ [] ∧
      (exportTodosAsJSON sAB (some ["a"]) =
        sAB.todos.filter (fun t => (["a"] : List String).contains t.id) ∧
        ∀ t, t ∈ exportTodosAsJSON sAB (some ["a"]) ↔
          t ∈ sAB.todos ∧ t.id ∈ (["a"] : List String)) :=
  ⟨by decide, (exportTodosAsJSON_spec sAB ["a"]).2.2 (by decide)⟩

/-- C5 counterexample: adding an item whose id is already present leaves two
items with that id in the in-memory list, so "contains exactly one item with
that id" fails without a freshness precondition. -/
theorem addTodo_duplicate_cex :
    (addTodo sA tdA2).map
        (fun s => (s.todos.filter (fun t => t.id == tdA2.id)).length) = some 2 := by
  decide

/-- C5 amended: `addTodo` rejects when the id is empty; for a non-empty id
that is not already in the in-memory list, the item is inserted at the front
and is afterwards the only item with that id, with its fields intact. -/
theorem addTodo_spec (s : RepoState) (t : Todo) :
    (t.id = "" → addTodo s t = none) ∧
    (t.id ≠ "" → (∀ x ∈ s.todos, x.id ≠ t.id) →
      addTodo s t = some { store := dbPut s.store (toStored t), todos := t :: s.todos } ∧
      (t :: s.todos).filter (fun x => x.id == t.id) = [t]) := by
  constructor
  · intro h
    simp [addTodo, h]
  · intro hid hfresh
    refine ⟨by simp [addTodo, hid], ?_⟩
    rw [List.filter_cons_of_pos (by simp)]
    rw [List.filter_eq_nil_iff.2 (fun x hx => by simpa using hfresh x hx)]

/-- Witness for C5 at a concrete fresh add. -/
theorem addTodo_spec_witness :
    addTodo sA tdB = some { store := dbPut sA.store (toStored tdB), todos := tdB :: sA.todos } ∧
    (tdB :: sA.todos).filter (fun x => x.id == tdB.id) = [tdB] :=
  (addTodo_spec sA tdB).2 (by decide) (by decide)

/-- C1 counterexample: on the valid event trace where the individual request
succeeds but the transaction then fails, `putToStore`'s promise resolves —
it does not reject on transaction failure as the claim requires. -/
theorem putToStore_resolves_despite_tx_failure_cex :
    validTrace [IDBEvent.reqSuccess, IDBEvent.txError] = true ∧
    txCommitted [IDBEvent.reqSuccess, IDBEvent.txError] = false ∧
    putToStoreOutcome [IDBEvent.reqSuccess, IDBEvent.txError] = some Settled.resolved := by
  decide

/-- C1 amended: on every valid trace, the promises of `putToStore`,
`deleteFromStore`, `clearStore` and `getAllFromStore` settle according to the
individual request's outcome (resolving exactly when the request succeeded,
regardless of what the transaction later does); only the `withStore` helper
resolves exactly when the transaction committed. -/
theorem adapterOutcome_spec (events : List IDBEvent) (h : validTrace events = true) :
    (putToStoreOutcome events = some Settled.resolved ↔
      events.head? = some IDBEvent.reqSuccess) ∧
    deleteFromStoreOutcome events = putToStoreOutcome events ∧
    clearStoreOutcome events = putToStoreOutcome events ∧
    getAllFromStoreOutcome events = putToStoreOutcome events ∧
    (withStoreOutcome events = some Settled.resolved ↔ txCommitted events = true) := by
  unfold validTrace at h
  simp only [Bool.or_eq_true, beq_iff_eq] at h
  rcases h with (h | h) | h <;> subst h <;> decide

/-- Witness for C1 on the commit trace. -/
theorem adapterOutcome_spec_witness :
    (putToStoreOutcome [IDBEvent.reqSuccess, IDBEvent.txComplete] = some Settled.resolved ↔
      [IDBEvent.reqSuccess, IDBEvent.txComplete].head? = some IDBEvent.reqSuccess) ∧
    deleteFromStoreOutcome [IDBEvent.reqSuccess, IDBEvent.txComplete] =
      putToStoreOutcome [IDBEvent.reqSuccess, IDBEvent.txComplete] ∧
    clearStoreOutcome [IDBEvent.reqSuccess, IDBEvent.txComplete] =
      putToStoreOutcome [IDBEvent.reqSuccess, IDBEvent.txComplete] ∧
    getAllFromStoreOutcome [IDBEvent.reqSuccess, IDBEvent.txComplete] =
      putToStoreOutcome [IDBEvent.reqSuccess, IDBEvent.txComplete] ∧
    (withStoreOutcome [IDBEvent.reqSuccess, IDBEvent.txComplete] = some Settled.resolved ↔
      txCommitted [IDBEvent.reqSuccess, IDBEvent.txComplete] = true) :=
  adapterOutcome_spec [IDBEvent.reqSuccess, IDBEvent.txComplete] (by decide)

/-- One operation preserves the timestamp invariant, given its side
condition. -/
theorem applyOp_timeOK {s s' : RepoState} {op : Op}
    (hs : stateTimeOK s) (hop : opTimeOK op = true) (h : applyOp s op = some s') :
    stateTimeOK s' := by
  obtain ⟨hmem, hstore⟩ := hs
  cases op with
  | add t =>
    simp only [applyOp, addTodo] at h
    by_cases hid : t.id = ""
    · simp [hid] at h
    · rw [if_neg hid, Option.some.injEq] at h
      subst h
      have ht : t.createdAt ≤ t.updatedAt := by simpa [opTimeOK] using hop
      refine ⟨fun x hx => ?_, fun r hr => ?_⟩
      · rcases List.mem_cons.1 hx with rfl | hx
        · exact ht
        · exact hmem x hx
      · rcases mem_dbPut hr with rfl | hr
        · exact ⟨t.createdAt, t.updatedAt, rfl, rfl, ht⟩
        · exact hstore r hr
  | update t now =>
    simp only [applyOp, updateTodo] at h
    by_cases hid : t.id = ""
    · simp [hid] at h
    · rw [if_neg hid, Option.some.injEq] at h
      subst h
      have ht : t.createdAt ≤ now := by simpa [opTimeOK] using hop
      refine ⟨fun x hx => ?_, fun r hr => ?_⟩
      · by_cases hany : s.todos.any (fun x => x.id == ({ t with updatedAt := now } : Todo).id)
        · rw [if_pos hany] at hx
          rcases mem_replaceFirstById hx with rfl | hx
          · exact ht
          · exact hmem x hx
        · rw [if_neg hany] at hx
          rcases List.mem_cons.1 hx with rfl | hx
          · exact ht
          · exact hmem x hx
      · rcases mem_dbPut hr with rfl | hr
        · exact ⟨t.createdAt, now, rfl, rfl, ht⟩
        · exact hstore r hr
  | del id =>
    simp only [applyOp, deleteTodo] at h
    by_cases hid : id = ""
    · simp [hid] at h
    · rw [if_neg hid, Option.some.injEq] at h
      subst h
      exact ⟨fun x hx => hmem x (List.mem_of_mem_filter hx),
             fun r hr => hstore r (mem_dbDelete hr)⟩
  | clearCompleted =>
    simp only [applyOp, Option.some.injEq] at h
    subst h
    exact ⟨fun x hx => hmem x (List.mem_of_mem_filter hx),
           fun r hr => hstore r (mem_foldl_dbDelete hr)⟩
  | clearAll =>
    simp only [applyOp, Option.some.injEq] at h
    subst h
    exact ⟨fun x hx => absurd hx (by simp [clearAllData]),
           fun r hr => absurd hr (by simp [clearAllData])⟩
  | load now readFails =>
    simp only [applyOp, Option.some.injEq] at h
    subst h
    constructor
    · intro x hx
      cases readFails with
      | true => simp [loadTodos, loadTodosCore] at hx
      | false =>
        simp [loadTodos, loadTodosCore] at hx
        obtain ⟨r, hr, rfl⟩ := hx
        obtain ⟨c, u, hc, hu, hcu⟩ := hstore r hr
        simp [normalizeTodo, hc, hu, hcu]
    · intro r hr
      exact hstore r (by simpa [loadTodos] using hr)

/-- Running a sequence of operations preserves the timestamp invariant. -/
theorem runOps_timeOK {ops : List Op} {s s' : RepoState}
    (hs : stateTimeOK s) (hops : ops.all opTimeOK = true) (h : runOps s ops = some s') :
    stateTimeOK s' := by
  induction ops generalizing s with
  | nil =>
    simp only [runOps, Option.some.injEq] at h
    subst h
    exact hs
  | cons op ops ih =>
    simp only [List.all_cons, Bool.and_eq_true] at hops
    cases hm : applyOp s op with
    | none => simp [runOps, hm] at h
    | some s₁ =>
      simp only [runOps, hm] at h
      exact ih (applyOp_timeOK hs hops.1 hm) hops.2 h

/-- C3 counterexample: `addTodo` stores the caller's timestamps verbatim, so
adding an item with `updatedAt < createdAt` puts an item violating the
claimed invariant into the in-memory list. -/
theorem runOps_time_invariant_cex :
    runOps initState [Op.add tdBad] =
      some { store := [toStored tdBad], todos := [tdBad] } ∧
    tdBad.updatedAt < tdBad.createdAt := by
  decide

/-- C3 amended: only `update` refreshes `updatedAt` (to the clock value of
the call); `add` stores the caller's timestamps unchanged.  Provided every
added item already satisfies `updatedAt ≥ createdAt` and every update runs at
a clock value not before the item's `createdAt`, every item in the in-memory
list satisfies `updatedAt ≥ createdAt` after any sequence of repository
operations (load, add, update, delete, clearCompleted, clearAll) from the
initial state. -/
theorem runOps_time_invariant (ops : List Op) (s' : RepoState)
    (hok : ops.all opTimeOK = true) (hrun : runOps initState ops = some s') :
    ∀ t ∈ s'.todos, t.createdAt ≤ t.updatedAt :=
  (runOps_timeOK
    ⟨fun t ht => absurd ht (by simp [initState]),
     fun r hr => absurd hr (by simp [initState])⟩ hok hrun).1

/-- Witness for C3 on a concrete operation sequence. -/
theorem runOps_time_invariant_witness :
    c3ops.all opTimeOK = true ∧ c3item.createdAt ≤ c3item.updatedAt :=
  ⟨by decide, runOps_time_invariant c3ops c3final (by decide) (by decide) c3item (by decide)⟩

/-- `s || ""` is the identity on strings. -/
theorem jsOr_some_nil (s : String) : jsOr (some s) "" = s := by
  show (if s = "" then "" else s) = s
  split <;> simp_all

/-- `s || d` is the identity on non-empty strings. -/
theorem jsOr_some_ne {s : String} (d : String) (h : s ≠ "") : jsOr (some s) d = s := by
  show (if s = "" then d else s) = s
  rw [if_neg h]

/-- Reload normalization is the identity on a fully-populated item with a
non-empty priority. -/
theorem normalize_toStored {t : Todo} (now : Nat) (h : t.priority ≠ "") :
    normalizeTodo now (toStored t) = t := by
  cases t with
  | mk id title description notes priority completed selected createdAt updatedAt =>
    simp only [normalizeTodo, toStored, jsOr_some_nil, jsOr_some_ne _ h, Option.getD_some]

/-- `replaceFirstById` never changes the list of ids: the replaced entry has
the same id as its replacement. -/
theorem map_id_replaceFirstById (t : Todo) (l : List Todo) :
    (replaceFirstById t l).map Todo.id = l.map Todo.id := by
  induction l with
  | nil => rfl
  | cons x xs ih =>
    unfold replaceFirstById
    by_cases hid : x.id == t.id
    · rw [if_pos hid]
      simp only [List.map_cons, beq_iff_eq.1 hid]
    · rw [if_neg hid]
      simp only [List.map_cons, ih]

/-- With distinct ids, replacing the first match equals replacing every
match. -/
theorem map_toStored_replaceFirstById {t : Todo} {l : List Todo}
    (hnd : (l.map Todo.id).Nodup) :
    (replaceFirstById t l).map toStored =
      l.map (fun x => if x.id == t.id then toStored t else toStored x) := by
  induction l with
  | nil => rfl
  | cons x xs ih =>
    simp only [List.map_cons, List.nodup_cons] at hnd
    unfold replaceFirstById
    by_cases hid : x.id == t.id
    · rw [if_pos hid]
      simp only [List.map_cons, if_pos hid]
      refine congrArg _ (List.map_congr_left fun y hy => ?_).symm
      have hyx : y.id ≠ x.id := fun he => hnd.1 (he ▸ List.mem_map_of_mem Todo.id hy)
      rw [if_neg (by simpa using fun he => hyx (he.trans (beq_iff_eq.1 hid).symm))]
    · rw [if_neg hid]
      simp only [List.map_cons, if_neg hid, ih hnd.2]

/-- `toStored` keeps the id. -/
theorem toStored_id (t : Todo) : (toStored t).id = t.id := rfl

/-- A store that mirrors the cache has a record with a given id exactly when
the cache has an item with that id. -/
theorem anyId_transfer {store : List StoredTodo} {l : List Todo}
    (hperm : store.Perm (l.map toStored)) (k : String) :
    store.any (fun r => r.id == k) = l.any (fun x => x.id == k) := by
  rw [Bool.eq_iff_iff]
  simp only [List.any_eq_true, beq_iff_eq]
  constructor
  · rintro ⟨r, hr, hrid⟩
    rcases List.mem_map.1 (hperm.mem_iff.1 hr) with ⟨x, hx, rfl⟩
    exact ⟨x, hx, hrid⟩
  · rintro ⟨x, hx, hxid⟩
    exact ⟨toStored x, hperm.mem_iff.2 (List.mem_map_of_mem _ hx), hxid⟩

/-- Upsert of a fresh id mirrors a cons on the cache. -/
theorem dbPut_toStored_absent {store : List StoredTodo} {l : List Todo} {t : Todo}
    (hperm : store.Perm (l.map toStored)) (hfresh : ∀ x ∈ l, x.id ≠ t.id) :
    (dbPut store (toStored t)).Perm ((t :: l).map toStored) := by
  have hany : store.any (fun r => r.id == (toStored t).id) = false := by
    rw [toStored_id, anyId_transfer hperm]
    exact List.any_eq_false.2 (fun x hx => by simpa using hfresh x hx)
  rw [dbPut, if_neg (by simp [hany]), List.map_cons]
  exact (List.perm_append_singleton _ _).trans (hperm.cons _)

/-- Upsert of a present id mirrors replacing the (unique) cache entry with
that id. -/
theorem dbPut_toStored_present {store : List StoredTodo} {l : List Todo} {t : Todo}
    (hperm : store.Perm (l.map toStored)) (hnd : (l.map Todo.id).Nodup)
    (hany : store.any (fun r => r.id == (toStored t).id) = true) :
    (dbPut store (toStored t)).Perm ((replaceFirstById t l).map toStored) := by
  rw [dbPut, if_pos hany, map_toStored_replaceFirstById hnd]
  have h1 := hperm.map (fun r => if r.id == (toStored t).id then toStored t else r)
  rw [List.map_map] at h1
  exact h1

/-- Store delete mirrors the cache filter of `deleteTodo`. -/
theorem dbDelete_perm {store : List StoredTodo} {l : List Todo} (k : String)
    (hperm : store.Perm (l.map toStored)) :
    (dbDelete store k).Perm ((l.filter (fun x => !(x.id == k))).map toStored) := by
  have h1 := hperm.filter (fun r => !(r.id == k))
  rw [List.filter_map] at h1
  exact h1

/-- One `add`/`update`/`delete` call preserves the cache/store coherence
invariant, given its `audOKb` side condition. -/
theorem applyOp_synced {s s' : RepoState} {op : Op}
    (hs : syncedOK s) (hop : audOKb s op = true) (h : applyOp s op = some s') :
    syncedOK s' := by
  obtain ⟨hperm, hnd, hpri⟩ := hs
  cases op with
  | add t =>
    simp only [audOKb, Bool.and_eq_true, List.all_eq_true] at hop
    obtain ⟨⟨hid, hpr⟩, hfresh⟩ := hop
    have hid' : t.id ≠ "" := by simpa using hid
    have hpr' : t.priority ≠ "" := by simpa using hpr
    have hfresh' : ∀ x ∈ s.todos, x.id ≠ t.id := fun x hx => by simpa using hfresh x hx
    simp only [applyOp, addTodo, if_neg hid', Option.some.injEq] at h
    subst h
    refine ⟨dbPut_toStored_absent hperm hfresh', ?_, ?_⟩
    · simp only [List.map_cons, List.nodup_cons]
      refine ⟨fun hmem => ?_, hnd⟩
      rcases List.mem_map.1 hmem with ⟨x, hx, he⟩
      exact hfresh' x hx he
    · intro x hx
      rcases List.mem_cons.1 hx with rfl | hx
      · exact hpr'
      · exact hpri x hx
  | update t now =>
    simp only [audOKb, Bool.and_eq_true] at hop
    obtain ⟨hid, hpr⟩ := hop
    have hid' : t.id ≠ "" := by simpa using hid
    have hpr' : t.priority ≠ "" := by simpa using hpr
    simp only [applyOp, updateTodo, if_neg hid', Option.some.injEq] at h
    subst h
    by_cases hany : s.todos.any (fun x => x.id == ({ t with updatedAt := now } : Todo).id) = true
    · rw [if_pos hany]
      refine ⟨?_, ?_, ?_⟩
      · refine dbPut_toStored_present hperm hnd ?_
        rw [toStored_id, anyId_transfer hperm]
        exact hany
      · rw [map_id_replaceFirstById]
        exact hnd
      · intro x hx
        rcases mem_replaceFirstById hx with rfl | hx
        · exact hpr'
        · exact hpri x hx
    · rw [if_neg hany]
      rw [Bool.not_eq_true, List.any_eq_false] at hany
      have hfresh' : ∀ x ∈ s.todos, x.id ≠ ({ t with updatedAt := now } : Todo).id :=
        fun x hx => by simpa using hany x hx
      refine ⟨dbPut_toStored_absent hperm hfresh', ?_, ?_⟩
      · simp only [List.map_cons, List.nodup_cons]
        refine ⟨fun hmem => ?_, hnd⟩
        rcases List.mem_map.1 hmem with ⟨x, hx, he⟩
        exact hfresh' x hx he
      · intro x hx
        rcases List.mem_cons.1 hx with rfl | hx
        · exact hpr'
        · exact hpri x hx
  | del id =>
    simp only [audOKb] at hop
    have hid' : id ≠ "" := by simpa using hop
    simp only [applyOp, deleteTodo, if_neg hid', Option.some.injEq] at h
    subst h
    refine ⟨dbDelete_perm id hperm, ?_, ?_⟩
    · exact List.Nodup.sublist (List.Sublist.map _ (List.filter_sublist _)) hnd
    · exact fun x hx => hpri x (List.mem_of_mem_filter hx)
  | clearCompleted => simp [audOKb] at hop
  | clearAll => simp [audOKb] at hop
  | load now readFails => simp [audOKb] at hop

/-- A good sequence of calls preserves the coherence invariant. -/
theorem goodSeq_synced {ops : List Op} {s s' : RepoState}
    (hs : syncedOK s) (hops : goodSeqB s ops = true) (h : runOps s ops = some s') :
    syncedOK s' := by
  induction ops generalizing s with
  | nil =>
    simp only [runOps, Option.some.injEq] at h
    subst h
    exact hs
  | cons op ops ih =>
    simp only [goodSeqB, Bool.and_eq_true] at hops
    cases hm : applyOp s op with
    | none =>
      rw [hm] at hops
      exact absurd hops.2 (by simp)
    | some s₁ =>
      rw [hm] at hops
      simp only [runOps, hm] at h
      exact ih (applyOp_synced hs hops.1 hm) hops.2 h

/-- C4 counterexample: after two successful adds that reuse the same id, the
storage holds one record while the in-memory list holds both entries, so a
reload does not reproduce the pre-reload list — the round-trip claim fails
without a freshness precondition on added ids. -/
theorem loadTodos_roundTrip_cex :
    runOps initState [Op.add tdA, Op.add tdA2] = some c4bad ∧
    ¬ (loadTodos c4bad 100 false).2.Perm c4bad.todos := by
  exact ⟨by decide, by decide⟩

/-- C4 amended: for every sequence of successful `add`/`update`/`delete`
calls from the initial state in which each `add` uses an id not currently in
the list and every written item carries a non-empty priority, a subsequent
`load()` (fresh read from storage) yields a list with exactly the same items,
by id and field values, as `list()` held before the reload, ordered by
`createdAt` descending. -/
theorem loadTodos_roundTrip (ops : List Op) (s' : RepoState)
    (hgood : goodSeqB initState ops = true) (hrun : runOps initState ops = some s')
    (now : Nat) :
    (loadTodos s' now false).2.Perm s'.todos ∧
    List.Sorted createdGe (loadTodos s' now false).2 := by
  have hsync : syncedOK s' :=
    goodSeq_synced
      ⟨by simp [initState], by simp [initState],
       fun t ht => absurd ht (by simp [initState])⟩ hgood hrun
  obtain ⟨hperm, hnd, hpri⟩ := hsync
  have h2 : (loadTodos s' now false).2 =
      List.insertionSort createdGe (s'.store.map (normalizeTodo now)) := rfl
  constructor
  · rw [h2]
    have hp1 : (List.insertionSort createdGe (s'.store.map (normalizeTodo now))).Perm
        (s'.store.map (normalizeTodo now)) := List.perm_insertionSort _ _
    have hp2 : (s'.store.map (normalizeTodo now)).Perm
        ((s'.todos.map toStored).map (normalizeTodo now)) := hperm.map _
    have h3 : (s'.todos.map toStored).map (normalizeTodo now) = s'.todos := by
      rw [List.map_map]
      have : ∀ t ∈ s'.todos, (normalizeTodo now ∘ toStored) t = t :=
        fun t ht => normalize_toStored now (hpri t ht)
      rw [List.map_congr_left this]
      simp
    exact (hp1.trans hp2).trans (by rw [h3])
  · rw [h2]
    exact List.sorted_insertionSort createdGe _

/-- Witness for C4 on a concrete add/add/update/delete run. -/
theorem loadTodos_roundTrip_witness :
    (loadTodos c4final 100 false).2.Perm c4final.todos ∧
    List.Sorted createdGe (loadTodos c4final 100 false).2 :=
  loadTodos_roundTrip c4ops c4final (by decide) (by decide) 100

/-- C2 counterexample: on the claimed three-line input the separator line
`| - | - |` fails the code's `[-:]{3,}` separator pattern (it requires at
least three dashes per cell), so `processTable` emits the buffered lines
verbatim: the output is the input itself and contains no table element. -/
theorem parseMarkdown_c2_cex :
    parseMarkdown c2input = c2input ∧
    ¬ ("<table>".toList <:+: parseMarkdown c2input) := by
  exact ⟨by decide, by decide⟩

/-- C2 amended: with separator cells of three dashes (the shortest the
code's separator pattern accepts), the output is a table element whose
header row has cells `A` and `B` and whose body has exactly one row with
cells `1` and `2`. -/
theorem parseMarkdown_c2_amended : parseMarkdown c2input3 = c2expected := by
  decide

/-!
### Generic substring helpers for the formatter proofs

`v <+: u` (prefix), `v <:+ u` (suffix), `v <:+: u` (contiguous substring).
-/

/-- Only the empty list is inside the empty list. -/
theorem mid_nil {α : Type} {v : List α} (h : v <:+: ([] : List α)) : v = [] := by
  obtain ⟨p, q, hpq⟩ := h
  rcases List.append_eq_nil.1 hpq with ⟨h1, -⟩
  exact (List.append_eq_nil.1 h1).2

/-- A substring of `c :: t` is a prefix of it or a substring of `t`. -/
theorem mid_cons_or {α : Type} {v t : List α} {c : α} (h : v <:+: c :: t) :
    v <+: c :: t ∨ v <:+: t := by
  obtain ⟨p, q, hpq⟩ := h
  cases p with
  | nil => exact Or.inl ⟨q, by simpa using hpq⟩
  | cons p₀ p' =>
    right
    simp only [List.cons_append, List.cons.injEq] at hpq
    exact ⟨p', q, hpq.2⟩

/-- A nonempty prefix of `c :: t` starts with `c`. -/
theorem pre_cons_or {α : Type} {v t : List α} {c : α} (h : v <+: c :: t) :
    v = [] ∨ ∃ v', v = c :: v' ∧ v' <+: t := by
  obtain ⟨q, hq⟩ := h
  cases v with
  | nil => exact Or.inl rfl
  | cons v₀ v' =>
    simp only [List.cons_append, List.cons.injEq] at hq
    exact Or.inr ⟨v', by rw [hq.1], ⟨q, hq.2⟩⟩

/-- Stripping a head character that does not occur in `v`. -/
theorem mid_cons_elim {α : Type} {v t : List α} {c : α} (hc : c ∉ v)
    (h : v <:+: c :: t) : v = [] ∨ v <:+: t := by
  rcases mid_cons_or h with h | h
  · rcases pre_cons_or h with h | ⟨v', rfl, hv'⟩
    · exact Or.inl h
    · exact absurd (List.mem_cons_self c v') hc
  · exact Or.inr h

/-- Prefixes embed into substrings. -/
theorem pre_mid {α : Type} {v u : List α} (h : v <+: u) : v <:+: u := by
  obtain ⟨q, hq⟩ := h
  exact ⟨[], q, by simpa using hq⟩

/-- Suffixes embed into substrings. -/
theorem suf_mid {α : Type} {v u : List α} (h : v <:+ u) : v <:+: u := by
  obtain ⟨p, hp⟩ := h
  exact ⟨p, [], by simpa using hp⟩

/-- A substring of the left part is a substring of the whole. -/
theorem mid_append_l {α : Type} {v a : List α} (b : List α) (h : v <:+: a) :
    v <:+: a ++ b := by
  obtain ⟨p, q, rfl⟩ := h
  exact ⟨p, q ++ b, by simp⟩

/-- A substring of the right part is a substring of the whole. -/
theorem mid_append_r {α : Type} {v b : List α} (a : List α) (h : v <:+: b) :
    v <:+: a ++ b := by
  obtain ⟨p, q, rfl⟩ := h
  exact ⟨a ++ p, q, by simp⟩

/-- A substring survives an extra head character. -/
theorem mid_cons_r {α : Type} {v t : List α} (c : α) (h : v <:+: t) :
    v <:+: c :: t :=
  mid_append_r [c] h

/-- Substring containment is transitive. -/
theorem mid_trans {α : Type} {v a u : List α} (h1 : v <:+: a) (h2 : a <:+: u) :
    v <:+: u := by
  obtain ⟨p, q, rfl⟩ := h1
  obtain ⟨p', q', rfl⟩ := h2
  exact ⟨p' ++ p, q ++ q', by simp⟩

/-- Characters of a substring occur in the string. -/
theorem mid_subset {α : Type} {v u : List α} (h : v <:+: u) {c : α} (hc : c ∈ v) :
    c ∈ u := by
  obtain ⟨p, q, rfl⟩ := h
  simp [hc]

/-- Decomposing a prefix of an append. -/
theorem pre_append_cases {α : Type} {v a b : List α} (h : v <+: a ++ b) :
    v <+: a ∨ ∃ w₂, v = a ++ w₂ ∧ w₂ <+: b := by
  induction a generalizing v with
  | nil => exact Or.inr ⟨v, by simp, by simpa using h⟩
  | cons c a' ih =>
    rcases pre_cons_or h with rfl | ⟨v', rfl, hv'⟩
    · exact Or.inl ⟨c :: a', rfl⟩
    · rcases ih hv' with h1 | ⟨w₂, rfl, hw₂⟩
      · obtain ⟨t, ht⟩ := h1
        exact Or.inl ⟨t, by simp [ht]⟩
      · exact Or.inr ⟨w₂, by simp, hw₂⟩

/-- Decomposing a substring of an append: it sits in the left part, in the
right part, or straddles the boundary. -/
theorem mid_append_cases {α : Type} {v a b : List α} (h : v <:+: a ++ b) :
    v <:+: a ∨ v <:+: b ∨
      ∃ w₁ w₂, w₁ ++ w₂ = v ∧ w₁ ≠ [] ∧ w₂ ≠ [] ∧ w₁ <:+ a ∧ w₂ <+: b := by
  induction a generalizing v with
  | nil => exact Or.inr (Or.inl (by simpa using h))
  | cons c a' ih =>
    rcases mid_cons_or h with hpre | hmid
    · have hpre' : v <+: (c :: a') ++ b := hpre
      rcases pre_append_cases hpre' with h1 | ⟨w₂, rfl, hw₂⟩
      · exact Or.inl (pre_mid h1)
      · by_cases hw : w₂ = []
        · subst hw
          exact Or.inl (pre_mid ⟨[], by simp⟩)
        · exact Or.inr (Or.inr ⟨c :: a', w₂, rfl, by simp, hw, ⟨[], rfl⟩, hw₂⟩)
    · rcases ih hmid with h1 | h1 | ⟨w₁, w₂, hv, hw1, hw2, hsuf, hpre⟩
      · exact Or.inl (mid_cons_r c h1)
      · exact Or.inr (Or.inl h1)
      · obtain ⟨p, hp⟩ := hsuf
        exact Or.inr (Or.inr ⟨w₁, w₂, hv, hw1, hw2, ⟨c :: p, by simp [hp]⟩, hpre⟩)

/-- Stripping a head character that does not occur in `v`, when `v` sits in
an append whose right part starts with that character. -/
theorem mid_append_elim_cons {α : Type} {v a t : List α} {c : α} (hc : c ∉ v)
    (h : v <:+: a ++ c :: t) : v <:+: a ∨ v <:+: c :: t := by
  rcases mid_append_cases h with h1 | h1 | ⟨w₁, w₂, hv, _, hw2, _, hpre⟩
  · exact Or.inl h1
  · exact Or.inr h1
  · rcases pre_cons_or hpre with rfl | ⟨w₂', rfl, -⟩
    · exact absurd rfl hw2
    · exact absurd (hv ▸ List.mem_append_right w₁ (List.mem_cons_self c w₂')) hc

/-- A nonempty prefix determines the head. -/
theorem pre_head {α : Type} {v t : List α} {c : α} (h : v <+: c :: t)
    (hv : v ≠ []) : v.head? = some c := by
  rcases pre_cons_or h with rfl | ⟨v', rfl, -⟩
  · exact absurd rfl hv
  · rfl

/-- A short suffix of an append is a suffix of the right part. -/
theorem suf_append_small {α : Type} {v a b : List α} (h : v <:+ a ++ b)
    (hlen : v.length ≤ b.length) : v <:+ b := by
  induction a with
  | nil => simpa using h
  | cons c a' ih =>
    obtain ⟨p, hp⟩ := h
    cases p with
    | nil =>
      have := congrArg List.length hp
      simp at this
      omega
    | cons p₀ p' =>
      simp only [List.cons_append, List.cons.injEq] at hp
      exact ih ⟨p', hp.2⟩

/-- Substrings transfer through `reverse`. -/
theorem mid_reverse {α : Type} {v u : List α} (h : v <:+: u) :
    v.reverse <:+: u.reverse := by
  obtain ⟨p, q, rfl⟩ := h
  exact ⟨q.reverse, p.reverse, by simp⟩

/-- Extending a prefix under a shared head. -/
theorem cons_pre_cons {α : Type} {v t : List α} (c : α) (h : v <+: t) :
    c :: v <+: c :: t := by
  obtain ⟨q, rfl⟩ := h
  exact ⟨q, rfl⟩

/-- `replaceAllChar` distributes over append. -/
theorem replaceAllChar_append (c : Char) (r a b : List Char) :
    replaceAllChar c r (a ++ b) = replaceAllChar c r a ++ replaceAllChar c r b := by
  induction a with
  | nil => rfl
  | cons x xs ih =>
    simp only [List.cons_append, replaceAllChar]
    split <;> simp [ih]

/-- `replaceAllChar` is the identity when the pattern does not occur. -/
theorem replaceAllChar_of_not_mem {c : Char} {v : List Char} (r : List Char)
    (hc : c ∉ v) : replaceAllChar c r v = v := by
  induction v with
  | nil => rfl
  | cons x xs ih =>
    simp only [replaceAllChar]
    have hx : ¬((x == c) = true) := by
      simp only [beq_iff_eq]
      exact fun he => hc (he ▸ List.mem_cons_self x xs)
    rw [if_neg hx, ih (fun hm => hc (List.mem_cons_of_mem x hm))]

/-- Substring occurrences map forward through `replaceAllChar`. -/
theorem mid_replaceAllChar (c : Char) (r : List Char) {v u : List Char}
    (h : v <:+: u) : replaceAllChar c r v <:+: replaceAllChar c r u := by
  obtain ⟨p, q, rfl⟩ := h
  rw [replaceAllChar_append, replaceAllChar_append]
  exact ⟨replaceAllChar c r p, replaceAllChar c r q, by simp⟩

/-- The replaced character never occurs in the output, provided it does not
occur in the replacement text. -/
theorem not_mem_replaceAllChar_self {c : Char} {r : List Char} (hc : c ∉ r)
    (u : List Char) : c ∉ replaceAllChar c r u := by
  induction u with
  | nil => simp [replaceAllChar]
  | cons x xs ih =>
    simp only [replaceAllChar]
    by_cases hx : (x == c) = true
    · rw [if_pos hx]
      intro hm
      rcases List.mem_append.1 hm with hm | hm
      · exact hc hm
      · exact ih hm
    · rw [if_neg hx]
      intro hm
      rcases List.mem_cons.1 hm with rfl | hm
      · exact hx (by simp)
      · exact ih hm

/-- A character absent from input and replacement is absent from the
output. -/
theorem not_mem_replaceAllChar_of {a c : Char} {r u : List Char}
    (hu : a ∉ u) (hr : a ∉ r) : a ∉ replaceAllChar c r u := by
  induction u with
  | nil => simp [replaceAllChar]
  | cons x xs ih =>
    have hx : a ∉ xs := fun hm => hu (List.mem_cons_of_mem x hm)
    simp only [replaceAllChar]
    by_cases hxc : (x == c) = true
    · rw [if_pos hxc]
      intro hm
      rcases List.mem_append.1 hm with hm | hm
      · exact hr hm
      · exact ih hx hm
    · rw [if_neg hxc]
      intro hm
      rcases List.mem_cons.1 hm with rfl | hm
      · exact hu (List.mem_cons_self a xs)
      · exact ih hx hm

/-- Prefixes free of the pattern and of the replacement characters pull back
through `replaceAllChar`. -/
theorem pre_replaceAllChar_rev {c : Char} {r : List Char} (hr : r ≠ []) :
    ∀ {u v : List Char}, c ∉ v → (∀ x ∈ v, x ∉ r) →
      v <+: replaceAllChar c r u → v <+: u := by
  intro u
  induction u with
  | nil =>
    intro v _ _ h
    obtain ⟨t, ht⟩ := h
    rcases List.append_eq_nil.1 (by simpa [replaceAllChar] using ht) with ⟨rfl, -⟩
    exact ⟨[], rfl⟩
  | cons y ys ih =>
    intro v hcv hrv h
    simp only [replaceAllChar] at h
    by_cases hy : (y == c) = true
    · rw [if_pos hy] at h
      rcases pre_append_cases h with h1 | ⟨w₂, rfl, hw₂⟩
      · cases v with
        | nil => exact ⟨y :: ys, rfl⟩
        | cons v₀ v' =>
          obtain ⟨t, ht⟩ := h1
          exact absurd (ht ▸ List.mem_append_left t (List.mem_cons_self v₀ v'))
            (hrv v₀ (List.mem_cons_self v₀ v'))
      · cases r with
        | nil => exact absurd rfl hr
        | cons r₀ r' =>
          exact absurd (List.mem_cons_self r₀ r')
            (hrv r₀ (List.mem_append_left _ (List.mem_cons_self r₀ r')))
    · rw [if_neg hy] at h
      rcases pre_cons_or h with rfl | ⟨v', rfl, hv'⟩
      · exact ⟨y :: ys, rfl⟩
      · exact cons_pre_cons y
          (ih (fun hm => hcv (List.mem_cons_of_mem y hm))
            (fun x hx => hrv x (List.mem_cons_of_mem y hx)) hv')

/-- Substrings free of the pattern and of the replacement characters pull
back through `replaceAllChar`. -/
theorem mid_replaceAllChar_rev {c : Char} {r : List Char} (hr : r ≠ []) :
    ∀ {u v : List Char}, v ≠ [] → c ∉ v → (∀ x ∈ v, x ∉ r) →
      v <:+: replaceAllChar c r u → v <:+: u := by
  intro u
  induction u with
  | nil =>
    intro v hv _ _ h
    exact absurd (mid_nil (by simpa [replaceAllChar] using h)) hv
  | cons y ys ih =>
    intro v hv hcv hrv h
    simp only [replaceAllChar] at h
    by_cases hy : (y == c) = true
    · rw [if_pos hy] at h
      rcases mid_append_cases h with h1 | h1 | ⟨w₁, w₂, hvw, hw1, _, hsuf, -⟩
      · cases v with
        | nil => exact absurd rfl hv
        | cons v₀ v' =>
          exact absurd (mid_subset h1 (List.mem_cons_self v₀ v'))
            (hrv v₀ (List.mem_cons_self v₀ v'))
      · exact mid_cons_r y (ih hv hcv hrv h1)
      · cases w₁ with
        | nil => exact absurd rfl hw1
        | cons a w' =>
          have ha_v : a ∈ v := by
            rw [← hvw]
            exact List.mem_append_left w₂ (List.mem_cons_self a w')
          have ha_r : a ∈ r := mid_subset (suf_mid hsuf) (List.mem_cons_self a w')
          exact absurd ha_r (hrv a ha_v)
    · rw [if_neg hy] at h
      rcases mid_cons_or h with hpre | hmid
      · rcases pre_cons_or hpre with rfl | ⟨v', rfl, hv'⟩
        · exact absurd rfl hv
        · have hv'' : v' <+: ys :=
            pre_replaceAllChar_rev hr (fun hm => hcv (List.mem_cons_of_mem y hm))
              (fun x hx => hrv x (List.mem_cons_of_mem y hx)) hv'
          exact pre_mid (cons_pre_cons y hv'')
      · exact mid_cons_r y (ih hv hcv hrv hmid)

/-- `escapeAngle` maps occurrences of `<script>` to `&lt;script&gt;`. -/
theorem escapeAngle_mid {u : List Char} (h : "<script>".toList <:+: u) :
    "&lt;script&gt;".toList <:+: escapeAngle u := by
  have h2 := mid_replaceAllChar '>' ("&gt;".toList)
    (mid_replaceAllChar '<' ("&lt;".toList) h)
  have e : replaceAllChar '>' ("&gt;".toList)
      (replaceAllChar '<' ("&lt;".toList) "<script>".toList) =
      "&lt;script&gt;".toList := by decide
  rw [e] at h2
  exact h2

/-- `escapeAngle` output contains no `<`. -/
theorem escapeAngle_no_lt (u : List Char) : '<' ∉ escapeAngle u :=
  not_mem_replaceAllChar_of
    (not_mem_replaceAllChar_self (by decide) u) (by decide)


/-- Decomposition of a successful lazy bold-close search. -/
theorem boldCloseAux_eq {u x rest : List Char} (h : boldCloseAux u = some (x, rest)) :
    u = x ++ '*' :: '*' :: rest := by
  induction u using boldCloseAux.induct generalizing x rest with
  | case1 r =>
    simp only [boldCloseAux, Option.some.injEq, Prod.mk.injEq] at h
    rw [← h.1, ← h.2]
    rfl
  | case2 c cs hg hterm =>
    simp only [boldCloseAux] at h
    rw [if_pos hterm] at h
    exact absurd h (by simp)
  | case3 c cs hg hterm ih =>
    simp only [boldCloseAux] at h
    rw [if_neg hterm, Option.map_eq_some'] at h
    obtain ⟨⟨x', rest'⟩, ha, he⟩ := h
    simp only [Prod.mk.injEq] at he
    obtain ⟨hx, hrest⟩ := he
    subst hrest
    rw [← hx]
    simp [ih ha]
  | case4 =>
    simp [boldCloseAux] at h

/-- Decomposition of a successful bold-span search (the span is nonempty). -/
theorem boldClose_eq {u x rest : List Char} (h : boldClose u = some (x, rest)) :
    u = x ++ '*' :: '*' :: rest := by
  cases u with
  | nil => simp [boldClose] at h
  | cons c cs =>
    simp only [boldClose] at h
    by_cases hterm : isLineTerm c = true
    · rw [if_pos hterm] at h
      exact absurd h (by simp)
    · rw [if_neg hterm, Option.map_eq_some'] at h
      obtain ⟨⟨x', rest'⟩, ha, he⟩ := h
      simp only [Prod.mk.injEq] at he
      obtain ⟨hx, hrest⟩ := he
      subst hrest
      rw [← hx]
      simp [boldCloseAux_eq ha]

/-- Star-free prefixes survive the bold pass. -/
theorem pre_boldPassF (f : Nat) (u : List Char) :
    ∀ {v : List Char}, '*' ∉ v → v <+: u → v <+: boldPassF f u := by
  induction f, u using boldPassF.induct with
  | case1 s =>
    intro v _ h
    exact h
  | case2 f =>
    intro v _ h
    exact h
  | case3 f rest x rest' hclose ih =>
    intro v hstar h
    rcases pre_cons_or h with rfl | ⟨v', rfl, -⟩
    · exact ⟨_, rfl⟩
    · exact absurd (List.mem_cons_self '*' v') hstar
  | case4 f rest hclose ih =>
    intro v hstar h
    rcases pre_cons_or h with rfl | ⟨v', rfl, -⟩
    · exact ⟨_, rfl⟩
    · exact absurd (List.mem_cons_self '*' v') hstar
  | case5 f c cs hg ih =>
    intro v hstar h
    simp only [boldPassF]
    rcases pre_cons_or h with rfl | ⟨v', rfl, hv'⟩
    · exact ⟨_, rfl⟩
    · exact cons_pre_cons c (ih (fun hm => hstar (List.mem_cons_of_mem c hm)) hv')

/-- Star-free substrings survive the bold pass. -/
theorem mid_boldPassF (f : Nat) (u : List Char) :
    ∀ {v : List Char}, v ≠ [] → '*' ∉ v → v <:+: u → v <:+: boldPassF f u := by
  induction f, u using boldPassF.induct with
  | case1 s =>
    intro v _ _ h
    exact h
  | case2 f =>
    intro v hv _ h
    exact absurd (mid_nil h) hv
  | case3 f rest x rest' hclose ih =>
    intro v hv hstar h
    rcases mid_cons_elim hstar h with rfl | h1
    · exact absurd rfl hv
    rcases mid_cons_elim hstar h1 with rfl | h2
    · exact absurd rfl hv
    rw [boldClose_eq hclose] at h2
    simp only [boldPassF, hclose]
    rcases mid_append_elim_cons hstar h2 with h3 | h3
    · exact mid_append_l _ (mid_append_l _ (mid_append_r _ h3))
    · rcases mid_cons_elim hstar h3 with rfl | h4
      · exact absurd rfl hv
      rcases mid_cons_elim hstar h4 with rfl | h5
      · exact absurd rfl hv
      exact mid_append_r _ (ih hv hstar h5)
  | case4 f rest hclose ih =>
    intro v hv hstar h
    rcases mid_cons_elim hstar h with rfl | h1
    · exact absurd rfl hv
    simp only [boldPassF, hclose]
    exact mid_cons_r '*' (ih hv hstar h1)
  | case5 f c cs hg ih =>
    intro v hv hstar h
    simp only [boldPassF]
    rcases mid_cons_or h with hpre | hmid
    · rcases pre_cons_or hpre with rfl | ⟨v', rfl, hv'⟩
      · exact absurd rfl hv
      · exact pre_mid (cons_pre_cons c
          (pre_boldPassF f cs (fun hm => hstar (List.mem_cons_of_mem c hm)) hv'))
    · exact mid_cons_r c (ih hv hstar hmid)

/-- Decomposition of a successful lazy highlight-close search. -/
theorem markClose_eq {u x rest : List Char} (h : markClose u = some (x, rest)) :
    u = x ++ '=' :: '=' :: rest := by
  induction u using markClose.induct generalizing x rest with
  | case1 r =>
    simp only [markClose, Option.some.injEq, Prod.mk.injEq] at h
    rw [← h.1, ← h.2]
    rfl
  | case2 c cs hg hterm =>
    simp only [markClose] at h
    rw [if_pos hterm] at h
    exact absurd h (by simp)
  | case3 c cs hg hterm ih =>
    simp only [markClose] at h
    rw [if_neg hterm, Option.map_eq_some'] at h
    obtain ⟨⟨x', rest'⟩, ha, he⟩ := h
    simp only [Prod.mk.injEq] at he
    obtain ⟨hx, hrest⟩ := he
    subst hrest
    rw [← hx]
    simp [ih ha]
  | case4 =>
    simp [markClose] at h

/-- Equals-free prefixes survive the highlight pass. -/
theorem pre_markPassF (f : Nat) (u : List Char) :
    ∀ {v : List Char}, '=' ∉ v → v <+: u → v <+: markPassF f u := by
  induction f, u using markPassF.induct with
  | case1 s =>
    intro v _ h
    exact h
  | case2 f =>
    intro v _ h
    exact h
  | case3 f rest x rest' hclose ih =>
    intro v heq h
    rcases pre_cons_or h with rfl | ⟨v', rfl, -⟩
    · exact ⟨_, rfl⟩
    · exact absurd (List.mem_cons_self '=' v') heq
  | case4 f rest hclose ih =>
    intro v heq h
    rcases pre_cons_or h with rfl | ⟨v', rfl, -⟩
    · exact ⟨_, rfl⟩
    · exact absurd (List.mem_cons_self '=' v') heq
  | case5 f c cs hg ih =>
    intro v heq h
    simp only [markPassF]
    rcases pre_cons_or h with rfl | ⟨v', rfl, hv'⟩
    · exact ⟨_, rfl⟩
    · exact cons_pre_cons c (ih (fun hm => heq (List.mem_cons_of_mem c hm)) hv')

/-- Equals-free substrings survive the highlight pass. -/
theorem mid_markPassF (f : Nat) (u : List Char) :
    ∀ {v : List Char}, v ≠ [] → '=' ∉ v → v <:+: u → v <:+: markPassF f u := by
  induction f, u using markPassF.induct with
  | case1 s =>
    intro v _ _ h
    exact h
  | case2 f =>
    intro v hv _ h
    exact absurd (mid_nil h) hv
  | case3 f rest x rest' hclose ih =>
    intro v hv heq h
    rcases mid_cons_elim heq h with rfl | h1
    · exact absurd rfl hv
    rcases mid_cons_elim heq h1 with rfl | h2
    · exact absurd rfl hv
    rw [markClose_eq hclose] at h2
    simp only [markPassF, hclose]
    rcases mid_append_elim_cons heq h2 with h3 | h3
    · exact mid_append_l _ (mid_append_l _ (mid_append_r _ h3))
    · rcases mid_cons_elim heq h3 with rfl | h4
      · exact absurd rfl hv
      rcases mid_cons_elim heq h4 with rfl | h5
      · exact absurd rfl hv
      exact mid_append_r _ (ih hv heq h5)
  | case4 f rest hclose ih =>
    intro v hv heq h
    rcases mid_cons_elim heq h with rfl | h1
    · exact absurd rfl hv
    simp only [markPassF, hclose]
    exact mid_cons_r '=' (ih hv heq h1)
  | case5 f c cs hg ih =>
    intro v hv heq h
    simp only [markPassF]
    rcases mid_cons_or h with hpre | hmid
    · rcases pre_cons_or hpre with rfl | ⟨v', rfl, hv'⟩
      · exact absurd rfl hv
      · exact pre_mid (cons_pre_cons c
          (pre_markPassF f cs (fun hm => heq (List.mem_cons_of_mem c hm)) hv'))
    · exact mid_cons_r c (ih hv heq hmid)

/-- Decomposition of a successful lazy italic-close search. -/
theorem italicCloseAux_eq {u x rest : List Char}
    (h : italicCloseAux u = some (x, rest)) : u = x ++ '*' :: rest := by
  induction u using italicCloseAux.induct generalizing x rest with
  | case1 r hr ih =>
    simp only [italicCloseAux] at h
    rw [if_pos hr, Option.map_eq_some'] at h
    obtain ⟨⟨x', rest'⟩, ha, he⟩ := h
    simp only [Prod.mk.injEq] at he
    obtain ⟨hx, hrest⟩ := he
    subst hrest
    rw [← hx]
    simp [ih ha]
  | case2 r hr =>
    simp only [italicCloseAux] at h
    rw [if_neg hr] at h
    simp only [Option.some.injEq, Prod.mk.injEq] at h
    rw [← h.1, ← h.2]
    rfl
  | case3 c cs hg hterm =>
    simp only [italicCloseAux] at h
    rw [if_pos hterm] at h
    exact absurd h (by simp)
  | case4 c cs hg hterm ih =>
    simp only [italicCloseAux] at h
    rw [if_neg hterm, Option.map_eq_some'] at h
    obtain ⟨⟨x', rest'⟩, ha, he⟩ := h
    simp only [Prod.mk.injEq] at he
    obtain ⟨hx, hrest⟩ := he
    subst hrest
    rw [← hx]
    simp [ih ha]
  | case5 =>
    simp [italicCloseAux] at h

/-- Decomposition of a successful italic-span search (the span is
nonempty). -/
theorem italicClose_eq {u x rest : List Char} (h : italicClose u = some (x, rest)) :
    u = x ++ '*' :: rest := by
  cases u with
  | nil => simp [italicClose] at h
  | cons c cs =>
    simp only [italicClose] at h
    by_cases hterm : isLineTerm c = true
    · rw [if_pos hterm] at h
      exact absurd h (by simp)
    · rw [if_neg hterm, Option.map_eq_some'] at h
      obtain ⟨⟨x', rest'⟩, ha, he⟩ := h
      simp only [Prod.mk.injEq] at he
      obtain ⟨hx, hrest⟩ := he
      subst hrest
      rw [← hx]
      simp [italicCloseAux_eq ha]

/-- Star-free prefixes survive the italic scan. -/
theorem pre_italicLoopF (f : Nat) (u : List Char) :
    ∀ {v : List Char}, '*' ∉ v → v <+: u → v <+: italicLoopF f u := by
  induction f, u using italicLoopF.induct with
  | case1 s =>
    intro v _ h
    exact h
  | case2 f =>
    intro v _ h
    exact h
  | case3 f g u hcond x rest' hclose ih =>
    intro v hstar h
    simp only [italicLoopF, hclose]
    rw [if_pos hcond]
    rcases pre_cons_or h with rfl | ⟨v', rfl, hv'⟩
    · exact ⟨_, rfl⟩
    · rcases pre_cons_or hv' with rfl | ⟨v'', rfl, -⟩
      · exact cons_pre_cons g ⟨_, rfl⟩
      · exact absurd (List.mem_cons_of_mem g (List.mem_cons_self '*' v'')) hstar
  | case4 f g u hcond hclose ih =>
    intro v hstar h
    simp only [italicLoopF, hclose]
    rw [if_pos hcond]
    rcases pre_cons_or h with rfl | ⟨v', rfl, hv'⟩
    · exact ⟨_, rfl⟩
    · rcases pre_cons_or hv' with rfl | ⟨v'', rfl, -⟩
      · exact cons_pre_cons g ⟨_, rfl⟩
      · exact absurd (List.mem_cons_of_mem g (List.mem_cons_self '*' v'')) hstar
  | case5 f g u hcond ih =>
    intro v hstar h
    simp only [italicLoopF]
    rw [if_neg hcond]
    rcases pre_cons_or h with rfl | ⟨v', rfl, hv'⟩
    · exact ⟨_, rfl⟩
    · rcases pre_cons_or hv' with rfl | ⟨v'', rfl, -⟩
      · exact cons_pre_cons g ⟨_, rfl⟩
      · exact absurd (List.mem_cons_of_mem g (List.mem_cons_self '*' v'')) hstar
  | case6 f c cs hg ih =>
    intro v hstar h
    simp only [italicLoopF]
    rcases pre_cons_or h with rfl | ⟨v', rfl, hv'⟩
    · exact ⟨_, rfl⟩
    · exact cons_pre_cons c (ih (fun hm => hstar (List.mem_cons_of_mem c hm)) hv')

/-- Star-free substrings survive the italic scan. -/
theorem mid_italicLoopF (f : Nat) (u : List Char) :
    ∀ {v : List Char}, v ≠ [] → '*' ∉ v → v <:+: u → v <:+: italicLoopF f u := by
  induction f, u using italicLoopF.induct with
  | case1 s =>
    intro v _ _ h
    exact h
  | case2 f =>
    intro v hv _ h
    exact absurd (mid_nil h) hv
  | case3 f g u hcond x rest' hclose ih =>
    intro v hv hstar h
    simp only [italicLoopF, hclose]
    rw [if_pos hcond]
    rcases mid_cons_or h with hpre | hmid
    · rcases pre_cons_or hpre with rfl | ⟨v', rfl, hv'⟩
      · exact absurd rfl hv
      · rcases pre_cons_or hv' with rfl | ⟨v'', rfl, -⟩
        · exact pre_mid (cons_pre_cons g ⟨_, rfl⟩)
        · exact absurd (List.mem_cons_of_mem g (List.mem_cons_self '*' v'')) hstar
    · rcases mid_cons_elim hstar hmid with rfl | h1
      · exact absurd rfl hv
      rw [italicClose_eq hclose] at h1
      rcases mid_append_elim_cons hstar h1 with h2 | h2
      · exact mid_cons_r g (mid_append_l _ (mid_append_l _ (mid_append_r _ h2)))
      · rcases mid_cons_elim hstar h2 with rfl | h3
        · exact absurd rfl hv
        exact mid_cons_r g (mid_append_r _ (ih hv hstar h3))
  | case4 f g u hcond hclose ih =>
    intro v hv hstar h
    simp only [italicLoopF, hclose]
    rw [if_pos hcond]
    rcases mid_cons_or h with hpre | hmid
    · rcases pre_cons_or hpre with rfl | ⟨v', rfl, hv'⟩
      · exact absurd rfl hv
      · rcases pre_cons_or hv' with rfl | ⟨v'', rfl, -⟩
        · exact pre_mid (cons_pre_cons g ⟨_, rfl⟩)
        · exact absurd (List.mem_cons_of_mem g (List.mem_cons_self '*' v'')) hstar
    · exact mid_cons_r g (ih hv hstar hmid)
  | case5 f g u hcond ih =>
    intro v hv hstar h
    simp only [italicLoopF]
    rw [if_neg hcond]
    rcases mid_cons_or h with hpre | hmid
    · rcases pre_cons_or hpre with rfl | ⟨v', rfl, hv'⟩
      · exact absurd rfl hv
      · rcases pre_cons_or hv' with rfl | ⟨v'', rfl, -⟩
        · exact pre_mid (cons_pre_cons g ⟨_, rfl⟩)
        · exact absurd (List.mem_cons_of_mem g (List.mem_cons_self '*' v'')) hstar
    · exact mid_cons_r g (ih hv hstar hmid)
  | case6 f c cs hg ih =>
    intro v hv hstar h
    simp only [italicLoopF]
    rcases mid_cons_or h with hpre | hmid
    · rcases pre_cons_or hpre with rfl | ⟨v', rfl, hv'⟩
      · exact absurd rfl hv
      · exact pre_mid (cons_pre_cons c
          (pre_italicLoopF f cs (fun hm => hstar (List.mem_cons_of_mem c hm)) hv'))
    · exact mid_cons_r c (ih hv hstar hmid)

/-- Star-free substrings survive the italic pass. -/
theorem mid_italicPass {u v : List Char} (hv : v ≠ []) (hstar : '*' ∉ v)
    (h : v <:+: u) : v <:+: italicPass u := by
  unfold italicPass
  split
  · next u' =>
    by_cases hhd : (u'.head? == some '*') = true
    · rw [if_pos hhd]
      exact mid_italicLoopF _ _ hv hstar h
    · rw [if_neg hhd]
      rcases hclose : italicClose u' with - | ⟨x, rest⟩
    
      · exact mid_italicLoopF _ _ hv hstar h
      · rcases mid_cons_elim hstar h with rfl | h1
        · exact absurd rfl hv
        rw [italicClose_eq hclose] at h1
        rcases mid_append_elim_cons hstar h1 with h2 | h2
        · exact mid_append_l _ (mid_append_l _ (mid_append_r _ h2))
        · rcases mid_cons_elim hstar h2 with rfl | h3
          · exact absurd rfl hv
          exact mid_append_r _ (mid_italicLoopF _ _ hv hstar h3)
  · exact mid_italicLoopF _ _ hv hstar h

/-- A verified boolean prefix yields a decomposition. -/
theorem hasPre_decomp : ∀ {p u : List Char}, hasPre p u = true →
    u = p ++ u.drop p.length := by
  intro p
  induction p with
  | nil =>
    intro u _
    simp
  | cons x ps ih =>
    intro u h
    cases u with
    | nil => simp [hasPre] at h
    | cons y ys =>
      simp only [hasPre, Bool.and_eq_true, beq_iff_eq] at h
      obtain ⟨rfl, h2⟩ := h
      simpa using ih h2

/-- Decomposition of a successful protocol strip. -/
theorem stripHttp_eq {u proto rest : List Char}
    (h : stripHttp u = some (proto, rest)) : u = proto ++ rest := by
  unfold stripHttp at h
  by_cases h1 : hasPre "https://".toList u = true
  · rw [if_pos h1] at h
    simp only [Option.some.injEq, Prod.mk.injEq] at h
    rw [← h.1, ← h.2]
    exact hasPre_decomp h1
  · rw [if_neg h1] at h
    by_cases h2 : hasPre "http://".toList u = true
    · rw [if_pos h2] at h
      simp only [Option.some.injEq, Prod.mk.injEq] at h
      rw [← h.1, ← h.2]
      exact hasPre_decomp h2
    · rw [if_neg h2] at h
      exact absurd h (by simp)

/-- Decomposition of a successful link match. -/
theorem tryLink_eq {u text url rest : List Char}
    (h : tryLink u = some (text, url, rest)) :
    u = text ++ ']' :: '(' :: (url ++ ')' :: rest) := by
  simp only [tryLink] at h
  split at h
  · exact absurd h (by simp)
  · split at h
    case h_2 => exact absurd h (by simp)
    case h_1 u₂ heq₁ =>
      split at h
      case h_2 => exact absurd h (by simp)
      case h_1 proto u₃ heq₂ =>
        split at h
        · exact absurd h (by simp)
        · split at h
          case h_2 => exact absurd h (by simp)
          case h_1 rest' heq₃ =>
            simp only [Option.some.injEq, Prod.mk.injEq] at h
            obtain ⟨htext, hurl, hrest⟩ := h
            subst hrest
            rw [← htext, ← hurl]
            calc u = u.takeWhile (fun c => c != ']') ++ u.dropWhile (fun c => c != ']') :=
                  (List.takeWhile_append_dropWhile _ _).symm
              _ = u.takeWhile (fun c => c != ']') ++ (']' :: '(' :: u₂) := by rw [heq₁]
              _ = u.takeWhile (fun c => c != ']') ++ (']' :: '(' :: (proto ++ u₃)) := by
                  rw [← stripHttp_eq heq₂]
              _ = u.takeWhile (fun c => c != ']') ++
                  (']' :: '(' :: (proto ++ (u₃.takeWhile urlChar ++ u₃.dropWhile urlChar))) := by
                  rw [List.takeWhile_append_dropWhile]
              _ = _ := by rw [heq₃]; simp

/-- A substring free of the pattern character survives `replaceAllChar` of
the surrounding string unchanged. -/
theorem mid_replaceAllChar_keep {c : Char} {r v t : List Char} (hc : c ∉ v)
    (h : v <:+: t) : v <:+: replaceAllChar c r t := by
  have h1 := mid_replaceAllChar c r h
  rwa [replaceAllChar_of_not_mem r hc] at h1

/-- Bracket-and-quote-free prefixes survive the link pass. -/
theorem pre_linkPassF (f : Nat) (u : List Char) :
    ∀ {v : List Char}, '[' ∉ v → v <+: u → v <+: linkPassF f u := by
  induction f, u using linkPassF.induct with
  | case1 s =>
    intro v _ h
    exact h
  | case2 f =>
    intro v _ h
    exact h
  | case3 f rest text url rest' hlink ih =>
    intro v hbr h
    rcases pre_cons_or h with rfl | ⟨v', rfl, -⟩
    · exact ⟨_, rfl⟩
    · exact absurd (List.mem_cons_self '[' v') hbr
  | case4 f rest hlink ih =>
    intro v hbr h
    rcases pre_cons_or h with rfl | ⟨v', rfl, -⟩
    · exact ⟨_, rfl⟩
    · exact absurd (List.mem_cons_self '[' v') hbr
  | case5 f c cs hg ih =>
    intro v hbr h
    simp only [linkPassF]
    rcases pre_cons_or h with rfl | ⟨v', rfl, hv'⟩
    · exact ⟨_, rfl⟩
    · exact cons_pre_cons c (ih (fun hm => hbr (List.mem_cons_of_mem c hm)) hv')

/-- Substrings free of brackets, parentheses and quotes survive the link
pass. -/
theorem mid_linkPassF (f : Nat) (u : List Char) :
    ∀ {v : List Char}, v ≠ [] → '[' ∉ v → ']' ∉ v → '(' ∉ v → ')' ∉ v → '"' ∉ v →
      v <:+: u → v <:+: linkPassF f u := by
  induction f, u using linkPassF.induct with
  | case1 s =>
    intro v _ _ _ _ _ _ h
    exact h
  | case2 f =>
    intro v hv _ _ _ _ _ h
    exact absurd (mid_nil h) hv
  | case3 f rest text url rest' hlink ih =>
    intro v hv h1 h2 h3 h4 h5 h
    simp only [linkPassF, hlink]
    rcases mid_cons_elim h1 h with rfl | hx
    · exact absurd rfl hv
    rw [tryLink_eq hlink] at hx
    rcases mid_append_elim_cons h2 hx with hx1 | hx1
    · -- inside the label text
      refine mid_append_l _ ?_
      unfold linkAnchor
      exact mid_append_l _ (mid_append_r _ (mid_replaceAllChar_keep h5 hx1))
    · rcases mid_cons_elim h2 hx1 with rfl | hx2
      · exact absurd rfl hv
      rcases mid_cons_elim h3 hx2 with rfl | hx3
      · exact absurd rfl hv
      rcases mid_append_elim_cons h4 hx3 with hx4 | hx4
      · -- inside the url
        refine mid_append_l _ ?_
        unfold linkAnchor
        exact mid_append_l _ (mid_append_l _ (mid_append_l _
          (mid_append_r _ (mid_replaceAllChar_keep h5 hx4))))
      · rcases mid_cons_elim h4 hx4 with rfl | hx5
        · exact absurd rfl hv
        exact mid_append_r _ (ih hv h1 h2 h3 h4 h5 hx5)
  | case4 f rest hlink ih =>
    intro v hv h1 h2 h3 h4 h5 h
    simp only [linkPassF, hlink]
    rcases mid_cons_elim h1 h with rfl | hx
    · exact absurd rfl hv
    exact mid_cons_r '[' (ih hv h1 h2 h3 h4 h5 hx)
  | case5 f c cs hg ih =>
    intro v hv h1 h2 h3 h4 h5 h
    simp only [linkPassF]
    rcases mid_cons_or h with hpre | hmid
    · rcases pre_cons_or hpre with rfl | ⟨v', rfl, hv'⟩
      · exact absurd rfl hv
      · exact pre_mid (cons_pre_cons c
          (pre_linkPassF f cs (fun hm => h1 (List.mem_cons_of_mem c hm)) hv'))
    · exact mid_cons_r c (ih hv h1 h2 h3 h4 h5 hmid)


/-- `splitLines` always yields at least one piece. -/
theorem splitLines_ne_nil (s : List Char) : splitLines s ≠ [] := by
  induction s using splitLines.induct with
  | case1 => simp [splitLines]
  | case2 rest ih => simp [splitLines]
  | case3 rest ih => simp [splitLines]
  | case4 c cs hg1 hg2 l' ls' heq ih => simp [splitLines, heq]
  | case5 c cs hg1 hg2 heq ih => exact absurd heq ih

/-- The first line is a prefix of the text. -/
theorem splitLines_head_pre : ∀ {s l : List Char} {ls : List (List Char)},
    splitLines s = l :: ls → l <+: s := by
  intro s
  induction s using splitLines.induct with
  | case1 =>
    intro l ls h
    simp only [splitLines, List.cons.injEq] at h
    rw [← h.1]
  | case2 rest ih =>
    intro l ls h
    simp only [splitLines, List.cons.injEq] at h
    rw [← h.1]
    exact ⟨_, rfl⟩
  | case3 rest ih =>
    intro l ls h
    simp only [splitLines, List.cons.injEq] at h
    rw [← h.1]
    exact ⟨_, rfl⟩
  | case4 c cs hg1 hg2 l' ls' heq ih =>
    intro l ls h
    simp only [splitLines, heq, List.cons.injEq] at h
    rw [← h.1]
    exact cons_pre_cons c (ih heq)
  | case5 c cs hg1 hg2 heq ih =>
    intro l ls h
    exact absurd heq (splitLines_ne_nil cs)

/-- Every line is a contiguous part of the text. -/
theorem splitLines_mem_mid : ∀ {s l : List Char}, l ∈ splitLines s → l <:+: s := by
  intro s
  induction s using splitLines.induct with
  | case1 =>
    intro l h
    simp only [splitLines, List.mem_singleton] at h
    subst h
    exact ⟨[], [], rfl⟩
  | case2 rest ih =>
    intro l h
    rcases List.mem_cons.1 h with rfl | h
    · exact ⟨[], _, rfl⟩
    · exact mid_cons_r '\r' (mid_cons_r '\n' (ih h))
  | case3 rest ih =>
    intro l h
    rcases List.mem_cons.1 h with rfl | h
    · exact ⟨[], _, rfl⟩
    · exact mid_cons_r '\n' (ih h)
  | case4 c cs hg1 hg2 l' ls' heq ih =>
    intro l h
    simp only [splitLines, heq] at h
    rcases List.mem_cons.1 h with rfl | h
    · exact pre_mid (cons_pre_cons c (splitLines_head_pre heq))
    · exact mid_cons_r c (ih (heq ▸ List.mem_cons_of_mem l' h))
  | case5 c cs hg1 hg2 heq ih =>
    intro l h
    exact absurd heq (splitLines_ne_nil cs)

/-- A line-terminator-free prefix stays a prefix of the first line. -/
theorem pre_splitLines_head : ∀ {s v l : List Char} {ls : List (List Char)},
    '\n' ∉ v → '\r' ∉ v → v <+: s → splitLines s = l :: ls → v <+: l := by
  intro s
  induction s using splitLines.induct with
  | case1 =>
    intro v l ls _ _ hp h
    simp only [splitLines, List.cons.injEq] at h
    obtain ⟨t, ht⟩ := hp
    rcases List.append_eq_nil.1 ht with ⟨rfl, -⟩
    rw [← h.1]
  | case2 rest ih =>
    intro v l ls hnl hcr hp h
    simp only [splitLines, List.cons.injEq] at h
    rcases pre_cons_or hp with rfl | ⟨v', rfl, -⟩
    · rw [← h.1]
    · exact absurd (List.mem_cons_self '\r' v') hcr
  | case3 rest ih =>
    intro v l ls hnl hcr hp h
    simp only [splitLines, List.cons.injEq] at h
    rcases pre_cons_or hp with rfl | ⟨v', rfl, -⟩
    · rw [← h.1]
    · exact absurd (List.mem_cons_self '\n' v') hnl
  | case4 c cs hg1 hg2 l' ls' heq ih =>
    intro v l ls hnl hcr hp h
    simp only [splitLines, heq, List.cons.injEq] at h
    rcases pre_cons_or hp with rfl | ⟨v', rfl, hv'⟩
    · rw [← h.1]
      exact ⟨_, rfl⟩
    · rw [← h.1]
      exact cons_pre_cons c
        (ih (fun hm => hnl (List.mem_cons_of_mem c hm))
          (fun hm => hcr (List.mem_cons_of_mem c hm)) hv' heq)
  | case5 c cs hg1 hg2 heq ih =>
    intro v l ls _ _ _ h
    exact absurd heq (splitLines_ne_nil cs)

/-- A line-terminator-free substring of the text sits inside one line. -/
theorem splitLines_mem_of_mid : ∀ {s v : List Char}, v ≠ [] → '\n' ∉ v →
    '\r' ∉ v → v <:+: s → ∃ l ∈ splitLines s, v <:+: l := by
  intro s
  induction s using splitLines.induct with
  | case1 =>
    intro v hv _ _ h
    exact absurd (mid_nil h) hv
  | case2 rest ih =>
    intro v hv hnl hcr h
    rcases mid_cons_elim hcr h with rfl | h1
    · exact absurd rfl hv
    rcases mid_cons_elim hnl h1 with rfl | h2
    · exact absurd rfl hv
    obtain ⟨l, hl, hvl⟩ := ih hv hnl hcr h2
    exact ⟨l, List.mem_cons_of_mem [] hl, hvl⟩
  | case3 rest ih =>
    intro v hv hnl hcr h
    rcases mid_cons_elim hnl h with rfl | h1
    · exact absurd rfl hv
    obtain ⟨l, hl, hvl⟩ := ih hv hnl hcr h1
    exact ⟨l, List.mem_cons_of_mem [] hl, hvl⟩
  | case4 c cs hg1 hg2 l' ls' heq ih =>
    intro v hv hnl hcr h
    rcases mid_cons_or h with hpre | hmid
    · rcases pre_cons_or hpre with rfl | ⟨v', rfl, hv'⟩
      · exact absurd rfl hv
      · have hvl : v' <+: l' :=
          pre_splitLines_head (fun hm => hnl (List.mem_cons_of_mem c hm))
            (fun hm => hcr (List.mem_cons_of_mem c hm)) hv' heq
        refine ⟨c :: l', ?_, pre_mid (cons_pre_cons c hvl)⟩
        simp [splitLines, heq]
    · obtain ⟨l, hl, hvl⟩ := ih hv hnl hcr hmid
      rw [heq] at hl
      rcases List.mem_cons.1 hl with rfl | hl
      · refine ⟨c :: l, ?_, mid_cons_r c hvl⟩
        simp [splitLines, heq]
      · refine ⟨l, ?_, hvl⟩
        simp only [splitLines, heq]
        exact List.mem_cons_of_mem _ hl
  | case5 c cs hg1 hg2 heq ih =>
    intro v _ _ _ _
    exact absurd heq (splitLines_ne_nil cs)

/-- `splitOnPipe` always yields at least one piece. -/
theorem splitOnPipe_ne_nil (l : List Char) : splitOnPipe l ≠ [] := by
  induction l using splitOnPipe.induct with
  | case1 => simp [splitOnPipe]
  | case2 cs ih => simp [splitOnPipe]
  | case3 c cs hg l' ls' heq ih => simp [splitOnPipe, heq]
  | case4 c cs hg heq ih => exact absurd heq ih

/-- The first split segment is a prefix of the line. -/
theorem splitOnPipe_head_pre : ∀ {l p : List Char} {ps : List (List Char)},
    splitOnPipe l = p :: ps → p <+: l := by
  intro l
  induction l using splitOnPipe.induct with
  | case1 =>
    intro p ps h
    simp only [splitOnPipe, List.cons.injEq] at h
    rw [← h.1]
  | case2 cs ih =>
    intro p ps h
    simp only [splitOnPipe, List.cons.injEq] at h
    rw [← h.1]
    exact ⟨_, rfl⟩
  | case3 c cs hg l' ls' heq ih =>
    intro p ps h
    simp only [splitOnPipe, heq, List.cons.injEq] at h
    rw [← h.1]
    exact cons_pre_cons c (ih heq)
  | case4 c cs hg heq ih =>
    intro p ps h
    exact absurd heq (splitOnPipe_ne_nil cs)

/-- Every split segment is a contiguous part of the line. -/
theorem splitOnPipe_mem_mid : ∀ {l p : List Char}, p ∈ splitOnPipe l → p <:+: l := by
  intro l
  induction l using splitOnPipe.induct with
  | case1 =>
    intro p h
    simp only [splitOnPipe, List.mem_singleton] at h
    subst h
    exact ⟨[], [], rfl⟩
  | case2 cs ih =>
    intro p h
    rcases List.mem_cons.1 h with rfl | h
    · exact ⟨[], _, rfl⟩
    · exact mid_cons_r '|' (ih h)
  | case3 c cs hg l' ls' heq ih =>
    intro p h
    simp only [splitOnPipe, heq] at h
    rcases List.mem_cons.1 h with rfl | h
    · exact pre_mid (cons_pre_cons c (splitOnPipe_head_pre heq))
    · exact mid_cons_r c (ih (heq ▸ List.mem_cons_of_mem l' h))
  | case4 c cs hg heq ih =>
    intro p h
    exact absurd heq (splitOnPipe_ne_nil cs)

/-- A pipe-free prefix stays a prefix of the first split segment. -/
theorem pre_splitOnPipe_head : ∀ {l v p : List Char} {ps : List (List Char)},
    '|' ∉ v → v <+: l → splitOnPipe l = p :: ps → v <+: p := by
  intro l
  induction l using splitOnPipe.induct with
  | case1 =>
    intro v p ps _ hp h
    simp only [splitOnPipe, List.cons.injEq] at h
    obtain ⟨t, ht⟩ := hp
    rcases List.append_eq_nil.1 ht with ⟨rfl, -⟩
    rw [← h.1]
  | case2 cs ih =>
    intro v p ps hpipe hp h
    simp only [splitOnPipe, List.cons.injEq] at h
    rcases pre_cons_or hp with rfl | ⟨v', rfl, -⟩
    · rw [← h.1]
    · exact absurd (List.mem_cons_self '|' v') hpipe
  | case3 c cs hg l' ls' heq ih =>
    intro v p ps hpipe hp h
    simp only [splitOnPipe, heq, List.cons.injEq] at h
    rcases pre_cons_or hp with rfl | ⟨v', rfl, hv'⟩
    · rw [← h.1]
      exact ⟨_, rfl⟩
    · rw [← h.1]
      exact cons_pre_cons c
        (ih (fun hm => hpipe (List.mem_cons_of_mem c hm)) hv' heq)
  | case4 c cs hg heq ih =>
    intro v p ps _ _ h
    exact absurd heq (splitOnPipe_ne_nil cs)

/-- A pipe-free substring of a line sits inside one split segment. -/
theorem splitOnPipe_mem_of_mid : ∀ {l v : List Char}, v ≠ [] → '|' ∉ v →
    v <:+: l → ∃ p ∈ splitOnPipe l, v <:+: p := by
  intro l
  induction l using splitOnPipe.induct with
  | case1 =>
    intro v hv _ h
    exact absurd (mid_nil h) hv
  | case2 cs ih =>
    intro v hv hpipe h
    rcases mid_cons_elim hpipe h with rfl | h1
    · exact absurd rfl hv
    obtain ⟨p, hp, hvp⟩ := ih hv hpipe h1
    exact ⟨p, List.mem_cons_of_mem [] hp, hvp⟩
  | case3 c cs hg l' ls' heq ih =>
    intro v hv hpipe h
    rcases mid_cons_or h with hpre | hmid
    · rcases pre_cons_or hpre with rfl | ⟨v', rfl, hv'⟩
      · exact absurd rfl hv
      · have hvp : v' <+: l' :=
          pre_splitOnPipe_head (fun hm => hpipe (List.mem_cons_of_mem c hm)) hv' heq
        refine ⟨c :: l', ?_, pre_mid (cons_pre_cons c hvp)⟩
        simp [splitOnPipe, heq]
    · obtain ⟨p, hp, hvp⟩ := ih hv hpipe hmid
      rw [heq] at hp
      rcases List.mem_cons.1 hp with rfl | hp
      · refine ⟨c :: p, ?_, mid_cons_r c hvp⟩
        simp [splitOnPipe, heq]
      · refine ⟨p, ?_, hvp⟩
        simp only [splitOnPipe, heq]
        exact List.mem_cons_of_mem _ hp
  | case4 c cs hg heq ih =>
    intro v _ _ _
    exact absurd heq (splitOnPipe_ne_nil cs)

/-- Splitting at the first pipe. -/
theorem splitOnPipe_cons_pipe : ∀ {a : List Char}, '|' ∉ a → ∀ (b : List Char),
    splitOnPipe (a ++ '|' :: b) = a :: splitOnPipe b := by
  intro a
  induction a with
  | nil =>
    intro _ b
    simp [splitOnPipe]
  | cons c a' ih =>
    intro hpipe b
    have hc : ¬(c = '|') := fun he => hpipe (he ▸ List.mem_cons_self c a')
    simp only [List.cons_append]
    rw [show splitOnPipe (c :: (a' ++ '|' :: b)) =
        match splitOnPipe (a' ++ '|' :: b) with
        | l :: ls => (c :: l) :: ls
        | [] => [[c]] from ?_]
    · rw [ih (fun hm => hpipe (List.mem_cons_of_mem c hm)) b]
    · conv_lhs => rw [splitOnPipe.eq_def]
      split
      · simp_all
      · simp_all
      · next x c' cs' hg heq =>
        injection heq with h1 h2
        subst h1
        subst h2
        rfl

/-- One unfolding step of `splitOnPipe` on a non-pipe head. -/
theorem splitOnPipe_cons_ne {c : Char} (hc : ¬c = '|') (cs : List Char) :
    splitOnPipe (c :: cs) =
      match splitOnPipe cs with
      | l :: ls => (c :: l) :: ls
      | [] => [[c]] := by
  conv_lhs => rw [splitOnPipe.eq_def]
  split
  · simp_all
  · simp_all
  · next x c' cs' hg heq =>
    injection heq with h1 h2
    subst h1
    subst h2
    rfl

/-- A pipe-free line is one single segment. -/
theorem splitOnPipe_no_pipe : ∀ {y : List Char}, '|' ∉ y → splitOnPipe y = [y] := by
  intro y
  induction y using splitOnPipe.induct with
  | case1 =>
    intro _
    rfl
  | case2 cs ih =>
    intro h
    exact absurd (List.mem_cons_self '|' cs) h
  | case3 c cs hg l' ls' heq ih =>
    intro h
    have h2 := ih (fun hm => h (List.mem_cons_of_mem c hm))
    rw [h2] at heq
    injection heq with e1 e2
    subst e1
    subst e2
    simp [splitOnPipe, h2]
  | case4 c cs hg heq ih =>
    intro _
    exact absurd heq (splitOnPipe_ne_nil cs)

/-- Splitting at the last pipe: the final segment is whatever follows it. -/
theorem splitOnPipe_concat_last : ∀ (x : List Char) {y : List Char}, '|' ∉ y →
    ∃ ps, ps ≠ [] ∧ splitOnPipe (x ++ '|' :: y) = ps ++ [y] := by
  intro x
  induction x with
  | nil =>
    intro y hy
    refine ⟨[[]], by simp, ?_⟩
    simp [splitOnPipe, splitOnPipe_no_pipe hy]
  | cons c x' ih =>
    intro y hy
    obtain ⟨ps, hps, heq⟩ := ih hy
    by_cases hc : c = '|'
    · subst hc
      refine ⟨[] :: ps, by simp, ?_⟩
      simp [splitOnPipe, heq]
    · rw [List.cons_append, splitOnPipe_cons_ne hc]
      rcases ps with - | ⟨p₀, ps'⟩
      · exact absurd rfl hps
      · refine ⟨(c :: p₀) :: ps', by simp, ?_⟩
        rw [heq]
        rfl

/-- A validated table-line tail splits at its last pipe, after which only
whitespace remains. -/
theorem tailPipeWs_decomp : ∀ {r : List Char}, tailPipeWs r = true →
    ∃ m wsE, r = m ++ '|' :: wsE ∧ wsE.all jsWs = true ∧ '|' ∉ wsE := by
  intro r
  induction r using tailPipeWs.induct with
  | case1 =>
    intro h
    simp [tailPipeWs] at h
  | case2 rest ih =>
    intro h
    simp only [tailPipeWs, Bool.or_eq_true] at h
    rcases h with h | h
    · refine ⟨[], rest, rfl, h, fun hm => ?_⟩
      have := List.all_eq_true.1 h '|' hm
      simp [jsWs] at this
    · obtain ⟨m, wsE, rfl, hall, hnp⟩ := ih h
      exact ⟨'|' :: m, wsE, rfl, hall, hnp⟩
  | case3 c cs hg hterm =>
    intro h
    simp only [tailPipeWs] at h
    rw [if_pos hterm] at h
    exact absurd h (by simp)
  | case4 c cs hg hterm ih =>
    intro h
    simp only [tailPipeWs] at h
    rw [if_neg hterm] at h
    obtain ⟨m, wsE, rfl, hall, hnp⟩ := ih h
    exact ⟨c :: m, wsE, rfl, hall, hnp⟩

/-- Structure of a line passing the table-line test. -/
theorem isTableLine_decomp {l : List Char} (h : isTableLine l = true) :
    ∃ w r, l = w ++ '|' :: r ∧ w.all jsWs = true ∧ tailPipeWs r = true := by
  unfold isTableLine at h
  split at h
  · next r heq =>
    refine ⟨l.takeWhile jsWs, r, ?_, ?_, h⟩
    · conv_lhs => rw [← List.takeWhile_append_dropWhile (p := jsWs) (l := l)]
      rw [heq]
    · exact List.all_eq_true.2 (fun c hc => List.mem_takeWhile_imp hc)
  · exact absurd h (by simp)

/-- The first split segment of a table line is pure whitespace. -/
theorem isTableLine_head_ws {l : List Char} (h : isTableLine l = true) :
    ∃ w ps, splitOnPipe l = w :: ps ∧ w.all jsWs = true := by
  obtain ⟨w, r, rfl, hws, -⟩ := isTableLine_decomp h
  have hnp : '|' ∉ w := fun hm => by
    have := List.all_eq_true.1 hws '|' hm
    simp [jsWs] at this
  exact ⟨w, splitOnPipe r, splitOnPipe_cons_pipe hnp r, hws⟩

/-- The last split segment of a table line is pure whitespace. -/
theorem isTableLine_last_ws {l : List Char} (h : isTableLine l = true) :
    ∃ ps wsE, ps ≠ [] ∧ splitOnPipe l = ps ++ [wsE] ∧ wsE.all jsWs = true := by
  obtain ⟨w, r, rfl, hws, htail⟩ := isTableLine_decomp h
  obtain ⟨m, wsE, rfl, hallE, hnpE⟩ := tailPipeWs_decomp htail
  obtain ⟨ps, hps, heq⟩ := splitOnPipe_concat_last (w ++ '|' :: m) hnpE
  refine ⟨ps, wsE, hps, ?_, hallE⟩
  rw [← heq]
  simp

/-- A split segment that is not pure whitespace is a retained cell. -/
theorem mem_sliceCells_of {l p : List Char} (ht : isTableLine l = true)
    (hp : p ∈ splitOnPipe l) (hnw : ¬p.all jsWs = true) :
    p ∈ sliceCells (splitOnPipe l) := by
  obtain ⟨w, ps, hw, hws⟩ := isTableLine_head_ws ht
  obtain ⟨qs, wsE, hqs, hlast, hallE⟩ := isTableLine_last_ws ht
  rcases qs with - | ⟨q₀, qs'⟩
  · exact absurd rfl hqs
  · rw [hw] at hlast
    simp only [List.cons_append, List.cons.injEq] at hlast
    obtain ⟨rfl, hps⟩ := hlast
    rw [hw] at hp
    unfold sliceCells
    rw [hw]
    simp only [List.drop_one, List.tail_cons, hps]
    rcases List.mem_cons.1 hp with rfl | hp
    · exact absurd hws hnw
    · rw [hps] at hp
      rcases List.mem_append.1 hp with hp | hp
      · simpa using hp
      · rw [List.mem_singleton.1 hp] at hnw
        exact absurd hallE hnw

/-- A substring whose characters all fail `p` survives `dropWhile p`. -/
theorem mid_dropWhile_of (p : Char → Bool) :
    ∀ {t v : List Char}, v ≠ [] → (∀ c ∈ v, p c = false) → v <:+: t →
      v <:+: t.dropWhile p := by
  intro t
  induction t with
  | nil =>
    intro v hv _ h
    exact absurd (mid_nil h) hv
  | cons c cs ih =>
    intro v hv hvp h
    by_cases hc : p c = true
    · rw [List.dropWhile_cons_of_pos hc]
      rcases mid_cons_or h with hpre | hmid
      · rcases pre_cons_or hpre with rfl | ⟨v', rfl, -⟩
        · exact absurd rfl hv
        · rw [hvp c (List.mem_cons_self c v')] at hc
          exact absurd hc (by simp)
      · exact ih hv hvp hmid
    · rw [List.dropWhile_cons_of_neg hc]
      exact h

/-- A whitespace-free substring survives `jsTrim`. -/
theorem mid_jsTrim {t v : List Char} (hv : v ≠ [])
    (hvw : ∀ c ∈ v, jsWs c = false) (h : v <:+: t) : v <:+: jsTrim t := by
  unfold jsTrim
  have h1 := mid_dropWhile_of jsWs hv hvw h
  have h2 := mid_reverse h1
  have h3 := mid_dropWhile_of jsWs (by simpa using hv)
    (fun c hc => hvw c (List.mem_reverse.1 hc)) h2
  have h4 := mid_reverse h3
  rwa [List.reverse_reverse] at h4

/-- `dropWhile` yields a suffix. -/
theorem suf_dropWhile (p : Char → Bool) : ∀ (t : List Char), t.dropWhile p <:+ t := by
  intro t
  induction t with
  | nil => exact ⟨[], rfl⟩
  | cons c cs ih =>
    by_cases hc : p c = true
    · rw [List.dropWhile_cons_of_pos hc]
      obtain ⟨s, hs⟩ := ih
      exact ⟨c :: s, by simp [hs]⟩
    · rw [List.dropWhile_cons_of_neg hc]

/-- The trimmed cell text is a contiguous part of the cell. -/
theorem jsTrim_mid_self (t : List Char) : jsTrim t <:+: t := by
  unfold jsTrim
  obtain ⟨s, hs⟩ := suf_dropWhile jsWs t
  obtain ⟨s', hs'⟩ := suf_dropWhile jsWs (t.dropWhile jsWs).reverse
  refine mid_trans ?_ (suf_mid ⟨s, hs⟩)
  refine pre_mid ⟨s'.reverse, ?_⟩
  have := congrArg List.reverse hs'
  simpa using this

/-- A member of a list is a contiguous part of its concatenation. -/
theorem mid_joinAll_of_mem : ∀ {ps : List (List Char)} {a : List Char},
    a ∈ ps → a <:+: joinAll ps := by
  intro ps
  induction ps with
  | nil =>
    intro a h
    simp at h
  | cons p ps ih =>
    intro a h
    rcases List.mem_cons.1 h with rfl | h
    · exact mid_append_l _ ⟨[], [], by simp⟩
    · exact mid_append_r _ (ih h)

/-- A member of a list is a contiguous part of its newline join. -/
theorem mid_joinNL_of_mem : ∀ {ps : List (List Char)} {a : List Char},
    a ∈ ps → a <:+: joinNL ps := by
  intro ps
  induction ps with
  | nil =>
    intro a h
    simp at h
  | cons p ps ih =>
    intro a h
    cases ps with
    | nil =>
      rw [List.mem_singleton.1 h]
      exact ⟨[], [], by simp [joinNL]⟩
    | cons q ps' =>
      rcases List.mem_cons.1 h with rfl | h
      · exact mid_append_l _ ⟨[], [], by simp [joinNL]⟩
      · exact mid_append_r _ (mid_cons_r '\n' (ih h))

/-- A newline-free substring of a newline join sits in one of the pieces. -/
theorem joinNL_mem_of_mid : ∀ {ps : List (List Char)} {v : List Char}, v ≠ [] →
    '\n' ∉ v → v <:+: joinNL ps → ∃ p ∈ ps, v <:+: p := by
  intro ps
  induction ps with
  | nil =>
    intro v hv _ h
    exact absurd (mid_nil h) hv
  | cons p ps ih =>
    intro v hv hnl h
    cases ps with
    | nil => exact ⟨p, List.mem_singleton_self p, h⟩
    | cons q ps' =>
      rcases mid_append_elim_cons hnl h with h1 | h1
      · exact ⟨p, List.mem_cons_self p _, h1⟩
      · rcases mid_cons_elim hnl h1 with rfl | h2
        · exact absurd rfl hv
        · obtain ⟨p', hp', hvp'⟩ := ih hv hnl h2
          exact ⟨p', List.mem_cons_of_mem p hp', hvp'⟩

/-- Structure of one validated separator cell. -/
theorem sepCell_decomp {u r : List Char} (h : sepCell u = some r) :
    ∃ a b c', u = a ++ (b ++ (c' ++ '|' :: r)) ∧ a.all jsWs = true ∧
      b.all (fun c => c == '-' || c == ':') = true ∧ c'.all jsWs = true := by
  simp only [sepCell] at h
  split at h
  · exact absurd h (by simp)
  · split at h
    · next r' heq =>
      simp only [Option.some.injEq] at h
      subst h
      refine ⟨u.takeWhile jsWs,
        (u.dropWhile jsWs).takeWhile (fun c => c == '-' || c == ':'),
        ((u.dropWhile jsWs).dropWhile (fun c => c == '-' || c == ':')).takeWhile jsWs,
        ?_, ?_, ?_, ?_⟩
      · conv_lhs => rw [← List.takeWhile_append_dropWhile (p := jsWs) (l := u)]
        congr 1
        conv_lhs => rw [← List.takeWhile_append_dropWhile
          (p := fun c => c == '-' || c == ':') (l := u.dropWhile jsWs)]
        congr 1
        conv_lhs => rw [← List.takeWhile_append_dropWhile (p := jsWs)
          (l := (u.dropWhile jsWs).dropWhile (fun c => c == '-' || c == ':'))]
        rw [heq]
      · exact List.all_eq_true.2 (fun c hc => by simpa using List.mem_takeWhile_imp hc)
      · exact List.all_eq_true.2 (fun c hc => by simpa using List.mem_takeWhile_imp hc)
      · exact List.all_eq_true.2 (fun c hc => by simpa using List.mem_takeWhile_imp hc)
    · exact absurd h (by simp)

/-- Every character of a string accepted by the separator loop is
whitespace, a dash, a colon, or a pipe. -/
theorem sepLoopF_chars : ∀ (f : Nat) {u : List Char}, sepLoopF f u = true →
    ∀ c ∈ u, (jsWs c || (c == '-' || (c == ':' || c == '|'))) = true := by
  intro f
  induction f with
  | zero =>
    intro u h
    simp [sepLoopF] at h
  | succ f ih =>
    intro u h c hc
    simp only [sepLoopF] at h
    rcases hcell : sepCell u with - | r
    · rw [hcell] at h
      exact absurd h (by simp)
    · rw [hcell] at h
      obtain ⟨a, b, c', hu, hals, hbds, hcls⟩ := sepCell_decomp hcell
      rw [hu] at hc
      simp only [Bool.or_eq_true] at h ⊢
      rcases List.mem_append.1 hc with hc | hc
      · exact Or.inl (List.all_eq_true.1 hals c hc)
      rcases List.mem_append.1 hc with hc | hc
      · rcases (by simpa using List.all_eq_true.1 hbds c hc :
            (c == '-') = true ∨ (c == ':') = true) with hb | hb
        · exact Or.inr (Or.inl hb)
        · exact Or.inr (Or.inr (Or.inl hb))
      rcases List.mem_append.1 hc with hc | hc
      · exact Or.inl (List.all_eq_true.1 hcls c hc)
      rcases List.mem_cons.1 hc with rfl | hc
      · exact Or.inr (Or.inr (Or.inr (by simp)))
      · rcases (by simpa using h :
            r.all jsWs = true ∨ sepLoopF f r = true) with h1 | h1
        · exact Or.inl (List.all_eq_true.1 h1 c hc)
        · simpa using ih h1 c hc

/-- Every character of a separator line is whitespace, a dash, a colon, or a
pipe. -/
theorem isSeparatorLine_chars {l : List Char} (h : isSeparatorLine l = true) :
    ∀ c ∈ l, (jsWs c || (c == '-' || (c == ':' || c == '|'))) = true := by
  unfold isSeparatorLine at h
  split at h
  · next r heq =>
    intro c hc
    have hl : l = l.takeWhile jsWs ++ '|' :: r := by
      conv_lhs => rw [← List.takeWhile_append_dropWhile (p := jsWs) (l := l)]
      rw [heq]
    rw [hl] at hc
    simp only [Bool.or_eq_true]
    rcases List.mem_append.1 hc with hc | hc
    · exact Or.inl (List.mem_takeWhile_imp hc)
    rcases List.mem_cons.1 hc with rfl | hc
    · exact Or.inr (Or.inr (Or.inr (by simp)))
    · simpa using sepLoopF_chars r.length h c hc
  · exact absurd h (by simp)

/-- The join of a tail is contained in the join. -/
theorem joinNL_tail_mid (p : List Char) (ps : List (List Char)) :
    joinNL ps <:+: joinNL (p :: ps) := by
  cases ps with
  | nil => exact ⟨[], p, by simp [joinNL]⟩
  | cons q ps' => exact mid_append_r _ (mid_cons_r '\n' ⟨[], [], by simp⟩)

/-- A whitespace-, pipe- and separator-charset-avoiding substring of a
buffered line survives `processTable`. -/
theorem mid_processTable {buffer : List (List Char)} {b v : List Char}
    (hbuf : ∀ x ∈ buffer, isTableLine x = true)
    (hb : b ∈ buffer) (hvb : v <:+: b) (hv : v ≠ [])
    (hws : ∀ c ∈ v, jsWs c = false) (hpipe : '|' ∉ v)
    (hspec : ∃ c ∈ v, (jsWs c || (c == '-' || (c == ':' || c == '|'))) = false) :
    v <:+: processTable buffer := by
  unfold processTable
  split
  · next b₀ b₁ rows =>
    by_cases hsep : isSeparatorLine b₁ = true
    · rw [if_pos hsep]
      rcases List.mem_cons.1 hb with rfl | hb1
      · obtain ⟨p, hp, hvp⟩ := splitOnPipe_mem_of_mid hv hpipe hvb
        have hnw : ¬p.all jsWs = true := by
          intro hall
          cases v with
          | nil => exact hv rfl
          | cons c v' =>
            have h1 := List.all_eq_true.1 hall c (mid_subset hvp (List.mem_cons_self c v'))
            have h2 := hws c (List.mem_cons_self c v')
            rw [h1] at h2
            exact absurd h2 (by simp)
        have hcell := mem_sliceCells_of (hbuf b (List.mem_cons_self b _)) hp hnw
        have hthcell : v <:+: "<th>".toList ++ jsTrim p ++ "</th>".toList :=
          mid_append_l _ (mid_append_r _ (mid_jsTrim hv hws hvp))
        have hjoin := mid_trans hthcell (mid_joinAll_of_mem
          (List.mem_map_of_mem (fun c => "<th>".toList ++ jsTrim c ++ "</th>".toList) hcell))
        exact mid_append_l _ (mid_append_l _ (mid_append_r _
          (mid_append_l _ (mid_append_r _ hjoin))))
      rcases List.mem_cons.1 hb1 with rfl | hb2
      · obtain ⟨c, hcv, hcbad⟩ := hspec
        have h1 := isSeparatorLine_chars hsep c (mid_subset hvb hcv)
        rw [h1] at hcbad
        exact absurd hcbad (by simp)
      · obtain ⟨p, hp, hvp⟩ := splitOnPipe_mem_of_mid hv hpipe hvb
        have hnw : ¬p.all jsWs = true := by
          intro hall
          cases v with
          | nil => exact hv rfl
          | cons c v' =>
            have h1 := List.all_eq_true.1 hall c (mid_subset hvp (List.mem_cons_self c v'))
            have h2 := hws c (List.mem_cons_self c v')
            rw [h1] at h2
            exact absurd h2 (by simp)
        have hcell := mem_sliceCells_of
          (hbuf b (List.mem_cons_of_mem b₀ (List.mem_cons_of_mem b₁ hb2))) hp hnw
        have htdcell : v <:+: "<td>".toList ++ jsTrim p ++ "</td>".toList :=
          mid_append_l _ (mid_append_r _ (mid_jsTrim hv hws hvp))
        have hcells := mid_trans htdcell (mid_joinAll_of_mem
          (List.mem_map_of_mem (fun c => "<td>".toList ++ jsTrim c ++ "</td>".toList) hcell))
        have hrowstr : v <:+: "<tr>".toList ++
            joinAll ((sliceCells (splitOnPipe b)).map
              (fun c => "<td>".toList ++ jsTrim c ++ "</td>".toList)) ++ "</tr>".toList :=
          mid_append_l _ (mid_append_r _ hcells)
        have hrows := mid_trans hrowstr (mid_joinAll_of_mem
          (List.mem_map_of_mem (fun line => "<tr>".toList ++
            joinAll ((sliceCells (splitOnPipe line)).map
              (fun c => "<td>".toList ++ jsTrim c ++ "</td>".toList)) ++ "</tr>".toList) hb2))
        exact mid_append_l _ (mid_append_r _
          (mid_append_l _ (mid_append_r _ hrows)))
    · rw [if_neg hsep]
      exact mid_trans hvb (mid_joinNL_of_mem hb)
  · exact mid_trans hvb (mid_joinNL_of_mem hb)

/-- A suitable substring of a buffered or pending line survives the
table-conversion loop. -/
theorem mid_convLines : ∀ (lines : List (List Char)) (buf : Option (List (List Char)))
    {v : List Char}, v ≠ [] → (∀ c ∈ v, jsWs c = false) → '|' ∉ v →
    (∃ c ∈ v, (jsWs c || (c == '-' || (c == ':' || c == '|'))) = false) →
    (∀ x ∈ buf.getD [], isTableLine x = true) →
    ((∃ b ∈ buf.getD [], v <:+: b) ∨ ∃ l ∈ lines, v <:+: l) →
    v <:+: joinNL (convLines buf lines) := by
  intro lines
  induction lines with
  | nil =>
    intro buf v hv hws hpipe hspec hbt hocc
    cases buf with
    | none =>
      rcases hocc with ⟨b, hb, -⟩ | ⟨l, hl, -⟩
      · simp at hb
      · simp at hl
    | some bl =>
      rcases hocc with ⟨b, hb, hvb⟩ | ⟨l, hl, -⟩
      · have h1 := mid_processTable (by simpa using hbt) (by simpa using hb)
          hvb hv hws hpipe hspec
        simpa [convLines, joinNL] using h1
      · simp at hl
  | cons l ls ih =>
    intro buf v hv hws hpipe hspec hbt hocc
    cases buf with
    | none =>
      simp only [convLines]
      by_cases htl : isTableLine l = true
      · rw [if_pos htl]
        refine ih (some [l]) hv hws hpipe hspec (by simpa using htl) ?_
        rcases hocc with ⟨b, hb, -⟩ | ⟨l', hl', hvl'⟩
        · simp at hb
        · rcases List.mem_cons.1 hl' with rfl | hl2
          · exact Or.inl ⟨l', by simp, hvl'⟩
          · exact Or.inr ⟨l', hl2, hvl'⟩
      · rw [if_neg htl]
        rcases hocc with ⟨b, hb, -⟩ | ⟨l', hl', hvl'⟩
        · simp at hb
        · rcases List.mem_cons.1 hl' with rfl | hl2
          · exact mid_trans hvl' (mid_joinNL_of_mem (List.mem_cons_self l' _))
          · exact mid_trans
              (ih none hv hws hpipe hspec (by simp) (Or.inr ⟨l', hl2, hvl'⟩))
              (joinNL_tail_mid l _)
    | some bl =>
      simp only [convLines]
      by_cases htl : isTableLine l = true
      · rw [if_pos htl]
        refine ih (some (bl ++ [l])) hv hws hpipe hspec ?_ ?_
        · intro x hx
          simp only [Option.getD_some] at hx ⊢
          rcases List.mem_append.1 hx with hx | hx
          · exact hbt x (by simpa using hx)
          · rw [List.mem_singleton.1 hx]
            exact htl
        · rcases hocc with ⟨b, hb, hvb⟩ | ⟨l', hl', hvl'⟩
          · exact Or.inl ⟨b, by simp [List.mem_append.2 (Or.inl (by simpa using hb))], hvb⟩
          · rcases List.mem_cons.1 hl' with rfl | hl2
            · exact Or.inl ⟨l', by simp, hvl'⟩
            · exact Or.inr ⟨l', hl2, hvl'⟩
      · rw [if_neg htl]
        rcases hocc with ⟨b, hb, hvb⟩ | ⟨l', hl', hvl'⟩
        · exact mid_trans
            (mid_processTable (by simpa using hbt) (by simpa using hb) hvb hv hws hpipe hspec)
            (mid_joinNL_of_mem (List.mem_cons_self _ _))
        · rcases List.mem_cons.1 hl' with rfl | hl2
          · exact mid_trans hvl'
              (mid_joinNL_of_mem (List.mem_cons_of_mem _ (List.mem_cons_self l' _)))
          · exact mid_trans
              (mid_trans
                (ih none hv hws hpipe hspec (by simp) (Or.inr ⟨l', hl2, hvl'⟩))
                (joinNL_tail_mid l _))
              (joinNL_tail_mid (processTable bl) _)

/-- A suitable substring of the text survives `convertTables`. -/
theorem mid_convertTables {text v : List Char} (hv : v ≠ [])
    (hws : ∀ c ∈ v, jsWs c = false) (hpipe : '|' ∉ v)
    (hspec : ∃ c ∈ v, (jsWs c || (c == '-' || (c == ':' || c == '|'))) = false)
    (h : v <:+: text) : v <:+: convertTables text := by
  have hnl : '\n' ∉ v := fun hm => by
    have := hws '\n' hm
    simp [jsWs] at this
  have hcr : '\r' ∉ v := fun hm => by
    have := hws '\r' hm
    simp [jsWs] at this
  obtain ⟨l, hl, hvl⟩ := splitLines_mem_of_mid hv hnl hcr h
  exact mid_convLines (splitLines text) none hv hws hpipe hspec (by simp)
    (Or.inr ⟨l, hl, hvl⟩)

/-!
### Reverse (pull-back) lemmas: no pass ever creates a `<sc` substring

`['<', 's', 'c']` is the three-character core of a literal `<script>` tag;
every replacement pass and the table converter are shown to pull such a
substring back to their input.
-/

/-- The nontrivial splittings of `<sc`. -/
theorem lsc_splits {w₁ w₂ : List Char} (h : w₁ ++ w₂ = ['<', 's', 'c'])
    (h1 : w₁ ≠ []) (h2 : w₂ ≠ []) :
    w₁ = ['<'] ∧ w₂ = ['s', 'c'] ∨ w₁ = ['<', 's'] ∧ w₂ = ['c'] := by
  cases w₁ with
  | nil => exact absurd rfl h1
  | cons a t =>
    cases t with
    | nil =>
      simp only [List.cons_append, List.nil_append] at h
      injection h with ha ht
      exact Or.inl ⟨by rw [ha], ht⟩
    | cons b t₂ =>
      cases t₂ with
      | nil =>
        simp only [List.cons_append, List.nil_append] at h
        injection h with ha h'
        injection h' with hb ht
        exact Or.inr ⟨by rw [ha, hb], ht⟩
      | cons d t₃ =>
        simp only [List.cons_append] at h
        injection h with ha h'
        injection h' with hb h''
        injection h'' with hd h₃
        exact absurd (List.append_eq_nil.1 h₃).2 h2

/-- A nonempty prefix of a cons starts with its head. -/
theorem not_pre_cons {α : Type} {v t : List α} {c : α} (hv : v ≠ []) (hc : c ∉ v)
    (h : v <+: c :: t) : False := by
  rcases pre_cons_or h with rfl | ⟨v', rfl, -⟩
  · exact hv rfl
  · exact hc (List.mem_cons_self c v')

/-- A newline-free substring of a `"\n"`-join sits inside one piece. -/
theorem mid_joinNL_elim {v : List Char} (hnl : '\n' ∉ v) (hv : v ≠ []) :
    ∀ {ps : List (List Char)}, v <:+: joinNL ps → ∃ p ∈ ps, v <:+: p := by
  intro ps
  induction ps with
  | nil =>
    intro h
    exact absurd (mid_nil h) hv
  | cons p ps ih =>
    intro h
    cases ps with
    | nil => exact ⟨p, List.mem_cons_self p [], h⟩
    | cons q ps' =>
      simp only [joinNL] at h
      rcases mid_append_elim_cons hnl h with h1 | h1
      · exact ⟨p, List.mem_cons_self _ _, h1⟩
      · rcases mid_cons_elim hnl h1 with rfl | h2
        · exact absurd rfl hv
        · obtain ⟨r, hr, hvr⟩ := ih h2
          exact ⟨r, List.mem_cons_of_mem p hr, hvr⟩

/-- `.slice(1, -1)` keeps only segments of the original split. -/
theorem sliceCells_subset {ps : List (List Char)} {p : List Char}
    (h : p ∈ sliceCells ps) : p ∈ ps := by
  unfold sliceCells at h
  exact List.drop_subset 1 ps (List.dropLast_subset _ h)

/-- Star-free, `<`-free prefixes of bold-pass output are prefixes of its
input. -/
theorem pre_boldPassF_rev (f : Nat) (u : List Char) :
    ∀ {v : List Char}, '*' ∉ v → '<' ∉ v → v <+: boldPassF f u → v <+: u := by
  induction f, u using boldPassF.induct with
  | case1 s =>
    intro v _ _ h
    exact h
  | case2 f =>
    intro v _ _ h
    exact h
  | case3 f rest x rest' hclose ih =>
    intro v hstar hlt h
    simp only [boldPassF, hclose] at h
    rcases pre_cons_or (show v <+: '<' :: _ from h) with rfl | ⟨v', rfl, -⟩
    · exact ⟨_, rfl⟩
    · exact absurd (List.mem_cons_self '<' v') hlt
  | case4 f rest hclose ih =>
    intro v hstar hlt h
    simp only [boldPassF, hclose] at h
    rcases pre_cons_or h with rfl | ⟨v', rfl, -⟩
    · exact ⟨_, rfl⟩
    · exact absurd (List.mem_cons_self '*' v') hstar
  | case5 f c cs hg ih =>
    intro v hstar hlt h
    simp only [boldPassF] at h
    rcases pre_cons_or h with rfl | ⟨v', rfl, hv'⟩
    · exact ⟨_, rfl⟩
    · exact cons_pre_cons c (ih (fun hm => hstar (List.mem_cons_of_mem c hm))
        (fun hm => hlt (List.mem_cons_of_mem c hm)) hv')

/-- The bold pass never creates a `<sc` substring. -/
theorem lsc_boldPassF_rev (f : Nat) (u : List Char) :
    ['<', 's', 'c'] <:+: boldPassF f u → ['<', 's', 'c'] <:+: u := by
  induction f, u using boldPassF.induct with
  | case1 s => exact fun h => h
  | case2 f =>
    intro h
    exact absurd (mid_nil h) (by decide)
  | case3 f rest x rest' hclose ih =>
    intro h
    simp only [boldPassF, hclose] at h
    rw [boldClose_eq hclose]
    rcases mid_append_cases h with h1 | h1 | ⟨w₁, w₂, hvw, hw1, hw2, hsuf, hpre⟩
    · rcases mid_append_cases h1 with h2 | h2 | ⟨w₁, w₂, hvw, hw1, hw2, hsuf, hpre⟩
      · rcases mid_append_cases h2 with h3 | h3 | ⟨w₁, w₂, hvw, hw1, hw2, hsuf, hpre⟩
        · exact absurd h3 (by decide)
        · exact mid_cons_r '*' (mid_cons_r '*' (mid_append_l _ h3))
        · rcases lsc_splits hvw hw1 hw2 with ⟨rfl, rfl⟩ | ⟨rfl, rfl⟩
          · exact absurd hsuf (by decide)
          · exact absurd hsuf (by decide)
      · exact absurd h2 (by decide)
      · rcases lsc_splits hvw hw1 hw2 with ⟨rfl, rfl⟩ | ⟨rfl, rfl⟩
        · exact absurd hpre (by decide)
        · exact absurd hpre (by decide)
    · exact mid_cons_r '*' (mid_cons_r '*'
        (mid_append_r _ (mid_cons_r '*' (mid_cons_r '*' (ih h1)))))
    · rcases lsc_splits hvw hw1 hw2 with ⟨rfl, rfl⟩ | ⟨rfl, rfl⟩
      · exact absurd (suf_append_small hsuf (by decide)) (by decide)
      · exact absurd (suf_append_small hsuf (by decide)) (by decide)
  | case4 f rest hclose ih =>
    intro h
    simp only [boldPassF, hclose] at h
    rcases mid_cons_elim (by decide) h with h0 | h1
    · exact absurd h0 (by decide)
    · exact mid_cons_r '*' (ih h1)
  | case5 f c cs hg ih =>
    intro h
    simp only [boldPassF] at h
    rcases mid_cons_or h with hpre | hmid
    · rcases pre_cons_or hpre with h0 | ⟨v', heq, hv'⟩
      · exact absurd h0 (by decide)
      · injection heq with hc1 hc2
        subst hc1
        subst hc2
        exact pre_mid (cons_pre_cons '<'
          (pre_boldPassF_rev f cs (by decide) (by decide) hv'))
    · exact mid_cons_r c (ih hmid)

/-- Equals-free, `<`-free prefixes of highlight-pass output are prefixes of
its input. -/
theorem pre_markPassF_rev (f : Nat) (u : List Char) :
    ∀ {v : List Char}, '=' ∉ v → '<' ∉ v → v <+: markPassF f u → v <+: u := by
  induction f, u using markPassF.induct with
  | case1 s =>
    intro v _ _ h
    exact h
  | case2 f =>
    intro v _ _ h
    exact h
  | case3 f rest x rest' hclose ih =>
    intro v heq hlt h
    simp only [markPassF, hclose] at h
    rcases pre_cons_or (show v <+: '<' :: _ from h) with rfl | ⟨v', rfl, -⟩
    · exact ⟨_, rfl⟩
    · exact absurd (List.mem_cons_self '<' v') hlt
  | case4 f rest hclose ih =>
    intro v heq hlt h
    simp only [markPassF, hclose] at h
    rcases pre_cons_or h with rfl | ⟨v', rfl, -⟩
    · exact ⟨_, rfl⟩
    · exact absurd (List.mem_cons_self '=' v') heq
  | case5 f c cs hg ih =>
    intro v heq hlt h
    simp only [markPassF] at h
    rcases pre_cons_or h with rfl | ⟨v', rfl, hv'⟩
    · exact ⟨_, rfl⟩
    · exact cons_pre_cons c (ih (fun hm => heq (List.mem_cons_of_mem c hm))
        (fun hm => hlt (List.mem_cons_of_mem c hm)) hv')

/-- The highlight pass never creates a `<sc` substring. -/
theorem lsc_markPassF_rev (f : Nat) (u : List Char) :
    ['<', 's', 'c'] <:+: markPassF f u → ['<', 's', 'c'] <:+: u := by
  induction f, u using markPassF.induct with
  | case1 s => exact fun h => h
  | case2 f =>
    intro h
    exact absurd (mid_nil h) (by decide)
  | case3 f rest x rest' hclose ih =>
    intro h
    simp only [markPassF, hclose] at h
    rw [markClose_eq hclose]
    rcases mid_append_cases h with h1 | h1 | ⟨w₁, w₂, hvw, hw1, hw2, hsuf, hpre⟩
    · rcases mid_append_cases h1 with h2 | h2 | ⟨w₁, w₂, hvw, hw1, hw2, hsuf, hpre⟩
      · rcases mid_append_cases h2 with h3 | h3 | ⟨w₁, w₂, hvw, hw1, hw2, hsuf, hpre⟩
        · exact absurd h3 (by decide)
        · exact mid_cons_r '=' (mid_cons_r '=' (mid_append_l _ h3))
        · rcases lsc_splits hvw hw1 hw2 with ⟨rfl, rfl⟩ | ⟨rfl, rfl⟩
          · exact absurd hsuf (by decide)
          · exact absurd hsuf (by decide)
      · exact absurd h2 (by decide)
      · rcases lsc_splits hvw hw1 hw2 with ⟨rfl, rfl⟩ | ⟨rfl, rfl⟩
        · exact absurd hpre (by decide)
        · exact absurd hpre (by decide)
    · exact mid_cons_r '=' (mid_cons_r '='
        (mid_append_r _ (mid_cons_r '=' (mid_cons_r '=' (ih h1)))))
    · rcases lsc_splits hvw hw1 hw2 with ⟨rfl, rfl⟩ | ⟨rfl, rfl⟩
      · exact absurd (suf_append_small hsuf (by decide)) (by decide)
      · exact absurd (suf_append_small hsuf (by decide)) (by decide)
  | case4 f rest hclose ih =>
    intro h
    simp only [markPassF, hclose] at h
    rcases mid_cons_elim (by decide) h with h0 | h1
    · exact absurd h0 (by decide)
    · exact mid_cons_r '=' (ih h1)
  | case5 f c cs hg ih =>
    intro h
    simp only [markPassF] at h
    rcases mid_cons_or h with hpre | hmid
    · rcases pre_cons_or hpre with h0 | ⟨v', heq, hv'⟩
      · exact absurd h0 (by decide)
      · injection heq with hc1 hc2
        subst hc1
        subst hc2
        exact pre_mid (cons_pre_cons '<'
          (pre_markPassF_rev f cs (by decide) (by decide) hv'))
    · exact mid_cons_r c (ih hmid)

/-- Star-free, `<`-free prefixes of the italic scan's output are prefixes
of its input. -/
theorem pre_italicLoopF_rev (f : Nat) (u : List Char) :
    ∀ {v : List Char}, '*' ∉ v → '<' ∉ v → v <+: italicLoopF f u → v <+: u := by
  induction f, u using italicLoopF.induct with
  | case1 s =>
    intro v _ _ h
    exact h
  | case2 f =>
    intro v _ _ h
    exact h
  | case3 f g u hcond x rest' hclose ih =>
    intro v hstar hlt h
    simp only [italicLoopF, hclose] at h
    rw [if_pos hcond] at h
    rcases pre_cons_or h with rfl | ⟨v', rfl, hv'⟩
    · exact ⟨_, rfl⟩
    · rcases pre_cons_or (show v' <+: '<' :: _ from hv') with rfl | ⟨v'', rfl, -⟩
      · exact cons_pre_cons g ⟨_, rfl⟩
      · exact absurd (List.mem_cons_of_mem g (List.mem_cons_self '<' v'')) hlt
  | case4 f g u hcond hclose ih =>
    intro v hstar hlt h
    simp only [italicLoopF, hclose] at h
    rw [if_pos hcond] at h
    rcases pre_cons_or h with rfl | ⟨v', rfl, hv'⟩
    · exact ⟨_, rfl⟩
    · exact cons_pre_cons g (ih (fun hm => hstar (List.mem_cons_of_mem g hm))
        (fun hm => hlt (List.mem_cons_of_mem g hm)) hv')
  | case5 f g u hcond ih =>
    intro v hstar hlt h
    simp only [italicLoopF] at h
    rw [if_neg hcond] at h
    rcases pre_cons_or h with rfl | ⟨v', rfl, hv'⟩
    · exact ⟨_, rfl⟩
    · exact cons_pre_cons g (ih (fun hm => hstar (List.mem_cons_of_mem g hm))
        (fun hm => hlt (List.mem_cons_of_mem g hm)) hv')
  | case6 f c cs hg ih =>
    intro v hstar hlt h
    simp only [italicLoopF] at h
    rcases pre_cons_or h with rfl | ⟨v', rfl, hv'⟩
    · exact ⟨_, rfl⟩
    · exact cons_pre_cons c (ih (fun hm => hstar (List.mem_cons_of_mem c hm))
        (fun hm => hlt (List.mem_cons_of_mem c hm)) hv')

/-- The italic scan never creates a `<sc` substring. -/
theorem lsc_italicLoopF_rev (f : Nat) (u : List Char) :
    ['<', 's', 'c'] <:+: italicLoopF f u → ['<', 's', 'c'] <:+: u := by
  induction f, u using italicLoopF.induct with
  | case1 s => exact fun h => h
  | case2 f =>
    intro h
    exact absurd (mid_nil h) (by decide)
  | case3 f g u hcond x rest' hclose ih =>
    intro h
    simp only [italicLoopF, hclose] at h
    rw [if_pos hcond] at h
    rw [italicClose_eq hclose]
    rcases mid_cons_or h with hpre | hmid
    · rcases pre_cons_or hpre with h0 | ⟨v', heq, hv'⟩
      · exact absurd h0 (by decide)
      · injection heq with hc1 hc2
        subst hc2
        exact (not_pre_cons (by decide) (by decide) hv').elim
    · rcases mid_append_cases hmid with h1 | h1 | ⟨w₁, w₂, hvw, hw1, hw2, hsuf, hpre2⟩
      · rcases mid_append_cases h1 with h2 | h2 | ⟨w₁, w₂, hvw, hw1, hw2, hsuf, hpre2⟩
        · rcases mid_append_cases h2 with h3 | h3 | ⟨w₁, w₂, hvw, hw1, hw2, hsuf, hpre2⟩
          · exact absurd h3 (by decide)
          · exact mid_cons_r g (mid_cons_r '*' (mid_append_l _ h3))
          · rcases lsc_splits hvw hw1 hw2 with ⟨rfl, rfl⟩ | ⟨rfl, rfl⟩
            · exact absurd hsuf (by decide)
            · exact absurd hsuf (by decide)
        · exact absurd h2 (by decide)
        · rcases lsc_splits hvw hw1 hw2 with ⟨rfl, rfl⟩ | ⟨rfl, rfl⟩
          · exact absurd hpre2 (by decide)
          · exact absurd hpre2 (by decide)
      · exact mid_cons_r g (mid_cons_r '*' (mid_append_r _ (mid_cons_r '*' (ih h1))))
      · rcases lsc_splits hvw hw1 hw2 with ⟨rfl, rfl⟩ | ⟨rfl, rfl⟩
        · exact absurd (suf_append_small hsuf (by decide)) (by decide)
        · exact absurd (suf_append_small hsuf (by decide)) (by decide)
  | case4 f g u hcond hclose ih =>
    intro h
    simp only [italicLoopF, hclose] at h
    rw [if_pos hcond] at h
    rcases mid_cons_or h with hpre | hmid
    · rcases pre_cons_or hpre with h0 | ⟨v', heq, hv'⟩
      · exact absurd h0 (by decide)
      · injection heq with hc1 hc2
        subst hc2
        have h3 := pre_italicLoopF_rev f ('*' :: u) (by decide) (by decide) hv'
        exact (not_pre_cons (by decide) (by decide) h3).elim
    · exact mid_cons_r g (ih hmid)
  | case5 f g u hcond ih =>
    intro h
    simp only [italicLoopF] at h
    rw [if_neg hcond] at h
    rcases mid_cons_or h with hpre | hmid
    · rcases pre_cons_or hpre with h0 | ⟨v', heq, hv'⟩
      · exact absurd h0 (by decide)
      · injection heq with hc1 hc2
        subst hc2
        have h3 := pre_italicLoopF_rev f ('*' :: u) (by decide) (by decide) hv'
        exact (not_pre_cons (by decide) (by decide) h3).elim
    · exact mid_cons_r g (ih hmid)
  | case6 f c cs hg ih =>
    intro h
    simp only [italicLoopF] at h
    rcases mid_cons_or h with hpre | hmid
    · rcases pre_cons_or hpre with h0 | ⟨v', heq, hv'⟩
      · exact absurd h0 (by decide)
      · injection heq with hc1 hc2
        subst hc1
        subst hc2
        exact pre_mid (cons_pre_cons '<'
          (pre_italicLoopF_rev f cs (by decide) (by decide) hv'))
    · exact mid_cons_r c (ih hmid)

/-- The italic pass never creates a `<sc` substring. -/
theorem lsc_italicPass_rev {s : List Char}
    (h : ['<', 's', 'c'] <:+: italicPass s) : ['<', 's', 'c'] <:+: s := by
  unfold italicPass at h
  split at h
  · next u =>
    by_cases hhd : (u.head? == some '*') = true
    · rw [if_pos hhd] at h
      exact lsc_italicLoopF_rev _ _ h
    · rw [if_neg hhd] at h
      split at h
      · next x rest hclose =>
        rw [italicClose_eq hclose]
        rcases mid_append_cases h with h1 | h1 | ⟨w₁, w₂, hvw, hw1, hw2, hsuf, hpre⟩
        · rcases mid_append_cases h1 with h2 | h2 | ⟨w₁, w₂, hvw, hw1, hw2, hsuf, hpre⟩
          · rcases mid_append_cases h2 with h3 | h3 | ⟨w₁, w₂, hvw, hw1, hw2, hsuf, hpre⟩
            · exact absurd h3 (by decide)
            · exact mid_cons_r '*' (mid_append_l _ h3)
            · rcases lsc_splits hvw hw1 hw2 with ⟨rfl, rfl⟩ | ⟨rfl, rfl⟩
              · exact absurd hsuf (by decide)
              · exact absurd hsuf (by decide)
          · exact absurd h2 (by decide)
          · rcases lsc_splits hvw hw1 hw2 with ⟨rfl, rfl⟩ | ⟨rfl, rfl⟩
            · exact absurd hpre (by decide)
            · exact absurd hpre (by decide)
        · exact mid_cons_r '*'
            (mid_append_r _ (mid_cons_r '*' (lsc_italicLoopF_rev _ _ h1)))
        · rcases lsc_splits hvw hw1 hw2 with ⟨rfl, rfl⟩ | ⟨rfl, rfl⟩
          · exact absurd (suf_append_small hsuf (by decide)) (by decide)
          · exact absurd (suf_append_small hsuf (by decide)) (by decide)
      · next hclose =>
        exact lsc_italicLoopF_rev _ _ h
  · next =>
    exact lsc_italicLoopF_rev _ _ h

/-- Bracket-free, `<`-free prefixes of link-pass output are prefixes of its
input. -/
theorem pre_linkPassF_rev (f : Nat) (u : List Char) :
    ∀ {v : List Char}, '[' ∉ v → '<' ∉ v → v <+: linkPassF f u → v <+: u := by
  induction f, u using linkPassF.induct with
  | case1 s =>
    intro v _ _ h
    exact h
  | case2 f =>
    intro v _ _ h
    exact h
  | case3 f rest text url rest' hlink ih =>
    intro v hbr hlt h
    simp only [linkPassF, hlink] at h
    unfold linkAnchor at h
    rcases pre_cons_or (show v <+: '<' :: _ from h) with rfl | ⟨v', rfl, -⟩
    · exact ⟨_, rfl⟩
    · exact absurd (List.mem_cons_self '<' v') hlt
  | case4 f rest hlink ih =>
    intro v hbr hlt h
    simp only [linkPassF, hlink] at h
    rcases pre_cons_or h with rfl | ⟨v', rfl, -⟩
    · exact ⟨_, rfl⟩
    · exact absurd (List.mem_cons_self '[' v') hbr
  | case5 f c cs hg ih =>
    intro v hbr hlt h
    simp only [linkPassF] at h
    rcases pre_cons_or h with rfl | ⟨v', rfl, hv'⟩
    · exact ⟨_, rfl⟩
    · exact cons_pre_cons c (ih (fun hm => hbr (List.mem_cons_of_mem c hm))
        (fun hm => hlt (List.mem_cons_of_mem c hm)) hv')

/-- The link pass never creates a `<sc` substring. -/
theorem lsc_linkPassF_rev (f : Nat) (u : List Char) :
    ['<', 's', 'c'] <:+: linkPassF f u → ['<', 's', 'c'] <:+: u := by
  induction f, u using linkPassF.induct with
  | case1 s => exact fun h => h
  | case2 f =>
    intro h
    exact absurd (mid_nil h) (by decide)
  | case3 f rest text url rest' hlink ih =>
    intro h
    simp only [linkPassF, hlink] at h
    rw [tryLink_eq hlink]
    rcases mid_append_cases h with h1 | h1 | ⟨w₁, w₂, hvw, hw1, hw2, hsuf, hpre⟩
    · unfold linkAnchor at h1
      rcases mid_append_cases h1 with h2 | h2 | ⟨w₁, w₂, hvw, hw1, hw2, hsuf, hpre⟩
      · rcases mid_append_cases h2 with h3 | h3 | ⟨w₁, w₂, hvw, hw1, hw2, hsuf, hpre⟩
        · rcases mid_append_cases h3 with h4 | h4 | ⟨w₁, w₂, hvw, hw1, hw2, hsuf, hpre⟩
          · rcases mid_append_cases h4 with h5 | h5 | ⟨w₁, w₂, hvw, hw1, hw2, hsuf, hpre⟩
            · exact absurd h5 (by decide)
            · have h6 := mid_replaceAllChar_rev (by decide) (by decide) (by decide)
                (by decide) h5
              exact mid_cons_r '[' (mid_append_r _ (mid_cons_r ']'
                (mid_cons_r '(' (mid_append_l _ h6))))
            · rcases lsc_splits hvw hw1 hw2 with ⟨rfl, rfl⟩ | ⟨rfl, rfl⟩
              · exact absurd hsuf (by decide)
              · exact absurd hsuf (by decide)
          · exact absurd h4 (by decide)
          · rcases lsc_splits hvw hw1 hw2 with ⟨rfl, rfl⟩ | ⟨rfl, rfl⟩
            · exact absurd hpre (by decide)
            · exact absurd hpre (by decide)
        · have h6 := mid_replaceAllChar_rev (by decide) (by decide) (by decide)
            (by decide) h3
          exact mid_cons_r '[' (mid_append_l _ h6)
        · rcases lsc_splits hvw hw1 hw2 with ⟨rfl, rfl⟩ | ⟨rfl, rfl⟩
          · exact absurd (suf_append_small hsuf (by decide)) (by decide)
          · exact absurd (suf_append_small hsuf (by decide)) (by decide)
      · exact absurd h2 (by decide)
      · rcases lsc_splits hvw hw1 hw2 with ⟨rfl, rfl⟩ | ⟨rfl, rfl⟩
        · exact absurd hpre (by decide)
        · exact absurd hpre (by decide)
    · have h6 := ih h1
      exact mid_cons_r '[' (mid_append_r _ (mid_cons_r ']' (mid_cons_r '('
        (mid_append_r _ (mid_cons_r ')' h6)))))
    · unfold linkAnchor at hsuf
      rcases lsc_splits hvw hw1 hw2 with ⟨rfl, rfl⟩ | ⟨rfl, rfl⟩
      · exact absurd (suf_append_small hsuf (by decide)) (by decide)
      · exact absurd (suf_append_small hsuf (by decide)) (by decide)
  | case4 f rest hlink ih =>
    intro h
    simp only [linkPassF, hlink] at h
    rcases mid_cons_or h with hpre | hmid
    · rcases pre_cons_or hpre with h0 | ⟨v', heq, -⟩
      · exact absurd h0 (by decide)
      · injection heq with hc1 hc2
        exact absurd hc1 (by decide)
    · exact mid_cons_r '[' (ih hmid)
  | case5 f c cs hg ih =>
    intro h
    simp only [linkPassF] at h
    rcases mid_cons_or h with hpre | hmid
    · rcases pre_cons_or hpre with h0 | ⟨v', heq, hv'⟩
      · exact absurd h0 (by decide)
      · injection heq with hc1 hc2
        subst hc1
        subst hc2
        exact pre_mid (cons_pre_cons '<'
          (pre_linkPassF_rev f cs (by decide) (by decide) hv'))
    · exact mid_cons_r c (ih hmid)

/-- A `<sc` substring of a join of wrapped, trimmed cells sits inside one
trimmed cell, provided the (concrete) wrappers neither contain `<sc` nor
let it straddle a boundary. -/
theorem lsc_joinAll_wrap {a z : List Char} (cells : List (List Char))
    (ha1 : ¬ ['<', 's', 'c'] <:+: a) (ha2 : ¬ ['<'] <:+ a) (ha3 : ¬ ['<', 's'] <:+ a)
    (hz1 : ¬ ['<', 's', 'c'] <:+: z) (hz2 : ¬ ['<'] <:+ z) (hz3 : ¬ ['<', 's'] <:+ z)
    (hz4 : ¬ ['s', 'c'] <+: z) (hz5 : ¬ ['c'] <+: z) (hzlen : 2 ≤ z.length) :
    ['<', 's', 'c'] <:+: joinAll (cells.map (fun c => a ++ jsTrim c ++ z)) →
    ∃ c ∈ cells, ['<', 's', 'c'] <:+: jsTrim c := by
  induction cells with
  | nil =>
    intro h
    exact absurd (mid_nil h) (by decide)
  | cons c cs ih =>
    intro h
    simp only [List.map_cons, joinAll] at h
    rcases mid_append_cases h with h1 | h1 | ⟨w₁, w₂, hvw, hw1, hw2, hsuf, hpre⟩
    · rcases mid_append_cases h1 with h2 | h2 | ⟨w₁, w₂, hvw, hw1, hw2, hsuf, hpre⟩
      · rcases mid_append_cases h2 with h3 | h3 | ⟨w₁, w₂, hvw, hw1, hw2, hsuf, hpre⟩
        · exact absurd h3 ha1
        · exact ⟨c, List.mem_cons_self c cs, h3⟩
        · rcases lsc_splits hvw hw1 hw2 with ⟨rfl, rfl⟩ | ⟨rfl, rfl⟩
          · exact absurd hsuf ha2
          · exact absurd hsuf ha3
      · exact absurd h2 hz1
      · rcases lsc_splits hvw hw1 hw2 with ⟨rfl, rfl⟩ | ⟨rfl, rfl⟩
        · exact absurd hpre hz4
        · exact absurd hpre hz5
    · obtain ⟨c', hc', hl⟩ := ih h1
      exact ⟨c', List.mem_cons_of_mem c hc', hl⟩
    · rcases lsc_splits hvw hw1 hw2 with ⟨rfl, rfl⟩ | ⟨rfl, rfl⟩
      · exact absurd (suf_append_small hsuf (Nat.le_trans (by decide) hzlen)) hz2
      · exact absurd (suf_append_small hsuf (Nat.le_trans (by decide) hzlen)) hz3

/-- A `<sc` substring of the joined body rows sits inside one source row. -/
theorem lsc_joinAll_rows (mrows : List (List Char)) :
    ['<', 's', 'c'] <:+: joinAll (mrows.map (fun line =>
      "<tr>".toList ++
        joinAll ((sliceCells (splitOnPipe line)).map
          (fun c => "<td>".toList ++ jsTrim c ++ "</td>".toList)) ++
        "</tr>".toList)) →
    ∃ r ∈ mrows, ['<', 's', 'c'] <:+: r := by
  induction mrows with
  | nil =>
    intro h
    exact absurd (mid_nil h) (by decide)
  | cons r rs ih =>
    intro h
    simp only [List.map_cons, joinAll] at h
    rcases mid_append_cases h with h1 | h1 | ⟨w₁, w₂, hvw, hw1, hw2, hsuf, hpre⟩
    · rcases mid_append_cases h1 with h2 | h2 | ⟨w₁, w₂, hvw, hw1, hw2, hsuf, hpre⟩
      · rcases mid_append_cases h2 with h3 | h3 | ⟨w₁, w₂, hvw, hw1, hw2, hsuf, hpre⟩
        · exact absurd h3 (by decide)
        · obtain ⟨c, hc, hl⟩ := lsc_joinAll_wrap _ (by decide) (by decide) (by decide)
            (by decide) (by decide) (by decide) (by decide) (by decide) (by decide) h3
          refine ⟨r, List.mem_cons_self r rs, ?_⟩
          exact mid_trans (mid_trans hl (jsTrim_mid_self c))
            (splitOnPipe_mem_mid (sliceCells_subset hc))
        · rcases lsc_splits hvw hw1 hw2 with ⟨rfl, rfl⟩ | ⟨rfl, rfl⟩
          · exact absurd hsuf (by decide)
          · exact absurd hsuf (by decide)
      · exact absurd h2 (by decide)
      · rcases lsc_splits hvw hw1 hw2 with ⟨rfl, rfl⟩ | ⟨rfl, rfl⟩
        · exact absurd hpre (by decide)
        · exact absurd hpre (by decide)
    · obtain ⟨r', hr', hl⟩ := ih h1
      exact ⟨r', List.mem_cons_of_mem r hr', hl⟩
    · rcases lsc_splits hvw hw1 hw2 with ⟨rfl, rfl⟩ | ⟨rfl, rfl⟩
      · exact absurd (suf_append_small hsuf (by decide)) (by decide)
      · exact absurd (suf_append_small hsuf (by decide)) (by decide)

/-- A `<sc` substring of a processed table buffer sits inside one of the
buffered lines. -/
theorem lsc_processTable_rev {buffer : List (List Char)}
    (h : ['<', 's', 'c'] <:+: processTable buffer) :
    ∃ b ∈ buffer, ['<', 's', 'c'] <:+: b := by
  have hjoin : ∀ (bs : List (List Char)), ['<', 's', 'c'] <:+: joinNL bs →
      ∃ b ∈ bs, ['<', 's', 'c'] <:+: b :=
    fun bs hb => mid_joinNL_elim (by decide) (by decide) hb
  unfold processTable at h
  split at h
  · next b₀ b₁ rows =>
    by_cases hsep : isSeparatorLine b₁ = true
    · rw [if_pos hsep] at h
      rcases mid_append_cases h with h1 | h1 | ⟨w₁, w₂, hvw, hw1, hw2, hsuf, hpre⟩
      · rcases mid_append_cases h1 with h2 | h2 | ⟨w₁, w₂, hvw, hw1, hw2, hsuf, hpre⟩
        · rcases mid_append_cases h2 with h3 | h3 | ⟨w₁, w₂, hvw, hw1, hw2, hsuf, hpre⟩
          · exact absurd h3 (by decide)
          · rcases mid_append_cases h3 with h4 | h4 | ⟨w₁, w₂, hvw, hw1, hw2, hsuf, hpre⟩
            · rcases mid_append_cases h4 with h5 | h5 | ⟨w₁, w₂, hvw, hw1, hw2, hsuf, hpre⟩
              · exact absurd h5 (by decide)
              · obtain ⟨c, hc, hl⟩ := lsc_joinAll_wrap _ (by decide) (by decide)
                  (by decide) (by decide) (by decide) (by decide) (by decide)
                  (by decide) (by decide) h5
                refine ⟨b₀, List.mem_cons_self _ _, ?_⟩
                exact mid_trans (mid_trans hl (jsTrim_mid_self c))
                  (splitOnPipe_mem_mid (sliceCells_subset hc))
              · rcases lsc_splits hvw hw1 hw2 with ⟨rfl, rfl⟩ | ⟨rfl, rfl⟩
                · exact absurd hsuf (by decide)
                · exact absurd hsuf (by decide)
            · exact absurd h4 (by decide)
            · rcases lsc_splits hvw hw1 hw2 with ⟨rfl, rfl⟩ | ⟨rfl, rfl⟩
              · exact absurd hpre (by decide)
              · exact absurd hpre (by decide)
          · rcases lsc_splits hvw hw1 hw2 with ⟨rfl, rfl⟩ | ⟨rfl, rfl⟩
            · exact absurd hsuf (by decide)
            · exact absurd hsuf (by decide)
        · rcases mid_append_cases h2 with h3 | h3 | ⟨w₁, w₂, hvw, hw1, hw2, hsuf, hpre⟩
          · rcases mid_append_cases h3 with h4 | h4 | ⟨w₁, w₂, hvw, hw1, hw2, hsuf, hpre⟩
            · exact absurd h4 (by decide)
            · obtain ⟨r, hr, hl⟩ := lsc_joinAll_rows _ h4
              exact ⟨r, List.mem_cons_of_mem b₀ (List.mem_cons_of_mem b₁ hr), hl⟩
            · rcases lsc_splits hvw hw1 hw2 with ⟨rfl, rfl⟩ | ⟨rfl, rfl⟩
              · exact absurd hsuf (by decide)
              · exact absurd hsuf (by decide)
          · exact absurd h3 (by decide)
          · rcases lsc_splits hvw hw1 hw2 with ⟨rfl, rfl⟩ | ⟨rfl, rfl⟩
            · exact absurd hpre (by decide)
            · exact absurd hpre (by decide)
        · rcases lsc_splits hvw hw1 hw2 with ⟨rfl, rfl⟩ | ⟨rfl, rfl⟩
          · exact (not_pre_cons (by decide) (by decide) hpre).elim
          · exact (not_pre_cons (by decide) (by decide) hpre).elim
      · exact absurd h1 (by decide)
      · rcases lsc_splits hvw hw1 hw2 with ⟨rfl, rfl⟩ | ⟨rfl, rfl⟩
        · exact absurd hpre (by decide)
        · exact absurd hpre (by decide)
    · rw [if_neg hsep] at h
      exact hjoin _ h
  · next =>
    exact hjoin _ h

/-- Every element of the buffering loop's output is either a source line or
the processed table of a buffer of source (or initially buffered) lines. -/
theorem convLines_mem : ∀ (lines : List (List Char))
    (buf : Option (List (List Char))) {out : List Char},
    out ∈ convLines buf lines →
    out ∈ lines ∨ ∃ b, (∀ l ∈ b, l ∈ lines ∨ l ∈ buf.getD []) ∧ out = processTable b := by
  intro lines
  induction lines with
  | nil =>
    intro buf out h
    cases buf with
    | none => simp [convLines] at h
    | some b =>
      simp only [convLines, List.mem_singleton] at h
      exact Or.inr ⟨b, fun l hl => Or.inr hl, h⟩
  | cons l ls ih =>
    intro buf out h
    cases buf with
    | none =>
      simp only [convLines] at h
      by_cases ht : isTableLine l = true
      · rw [if_pos ht] at h
        rcases ih (some [l]) h with h1 | ⟨b, hb, rfl⟩
        · exact Or.inl (List.mem_cons_of_mem l h1)
        · refine Or.inr ⟨b, fun x hx => ?_, rfl⟩
          rcases hb x hx with h2 | h2
          · exact Or.inl (List.mem_cons_of_mem l h2)
          · have hx2 : x = l := List.mem_singleton.1 h2
            exact Or.inl (by rw [hx2]; exact List.mem_cons_self l ls)
      · rw [if_neg ht] at h
        rcases List.mem_cons.1 h with h0 | h1
        · exact Or.inl (by rw [h0]; exact List.mem_cons_self l ls)
        · rcases ih none h1 with h2 | ⟨b, hb, rfl⟩
          · exact Or.inl (List.mem_cons_of_mem l h2)
          · refine Or.inr ⟨b, fun x hx => ?_, rfl⟩
            rcases hb x hx with h3 | h3
            · exact Or.inl (List.mem_cons_of_mem l h3)
            · exact absurd h3 (List.not_mem_nil x)
    | some bb =>
      simp only [convLines] at h
      by_cases ht : isTableLine l = true
      · rw [if_pos ht] at h
        rcases ih (some (bb ++ [l])) h with h1 | ⟨b, hb, rfl⟩
        · exact Or.inl (List.mem_cons_of_mem l h1)
        · refine Or.inr ⟨b, fun x hx => ?_, rfl⟩
          rcases hb x hx with h2 | h2
          · exact Or.inl (List.mem_cons_of_mem l h2)
          · rcases List.mem_append.1 h2 with h3 | h3
            · exact Or.inr h3
            · have hx3 : x = l := List.mem_singleton.1 h3
              exact Or.inl (by rw [hx3]; exact List.mem_cons_self l ls)
      · rw [if_neg ht] at h
        rcases List.mem_cons.1 h with rfl | h1
        · exact Or.inr ⟨bb, fun x hx => Or.inr hx, rfl⟩
        · rcases List.mem_cons.1 h1 with h0 | h2
          · exact Or.inl (by rw [h0]; exact List.mem_cons_self l ls)
          · rcases ih none h2 with h3 | ⟨b, hb, rfl⟩
            · exact Or.inl (List.mem_cons_of_mem l h3)
            · refine Or.inr ⟨b, fun x hx => ?_, rfl⟩
              rcases hb x hx with h4 | h4
              · exact Or.inl (List.mem_cons_of_mem l h4)
              · exact absurd h4 (List.not_mem_nil x)

/-- The table converter never creates a `<sc` substring. -/
theorem lsc_convertTables_rev {text : List Char}
    (h : ['<', 's', 'c'] <:+: convertTables text) : ['<', 's', 'c'] <:+: text := by
  unfold convertTables at h
  obtain ⟨out, hout, hmid⟩ := mid_joinNL_elim (by decide) (by decide) h
  rcases convLines_mem _ none hout with h1 | ⟨b, hb, rfl⟩
  · exact mid_trans hmid (splitLines_mem_mid h1)
  · obtain ⟨line, hline, hl⟩ := lsc_processTable_rev hmid
    rcases hb line hline with h2 | h2
    · exact mid_trans hl (splitLines_mem_mid h2)
    · exact absurd h2 (List.not_mem_nil line)

/-- The formatter's output never contains a `<sc` substring: the input's
angle brackets are escaped first, and no later pass reintroduces one. -/
theorem lsc_parseMarkdown (md : List Char) :
    ¬ ['<', 's', 'c'] <:+: parseMarkdown md := by
  intro h
  unfold parseMarkdown at h
  by_cases he : md.isEmpty = true
  · rw [if_pos he] at h
    exact absurd (mid_nil h) (by decide)
  · rw [if_neg he] at h
    have h1 := lsc_convertTables_rev h
    have h2 := lsc_linkPassF_rev _ _ h1
    have h3 := lsc_markPassF_rev _ _ h2
    have h4 := lsc_italicPass_rev h3
    have h5 := lsc_boldPassF_rev _ _ h4
    exact absurd (mid_subset h5 (by decide)) (escapeAngle_no_lt md)

/-- C6: for every input containing the substring `<script>`, the formatter's
output contains `&lt;script&gt;` and never contains a literal `<script>`
tag: `parseMarkdown` entity-escapes the angle brackets before any other
transformation pass runs, and no later pass reassembles a `<script>`
substring. -/
theorem parseMarkdown_escapes_script {md : List Char}
    (h : "<script>".toList <:+: md) :
    "&lt;script&gt;".toList <:+: parseMarkdown md ∧
      ¬ "<script>".toList <:+: parseMarkdown md := by
  constructor
  · have hmd : md.isEmpty = false := by
      cases md with
      | nil => exact absurd (mid_nil h) (by decide)
      | cons c cs => rfl
    have h1 : "&lt;script&gt;".toList <:+: escapeAngle md := escapeAngle_mid h
    have h2 : "&lt;script&gt;".toList <:+: boldPass (escapeAngle md) :=
      mid_boldPassF _ _ (by decide) (by decide) h1
    have h3 : "&lt;script&gt;".toList <:+: italicPass (boldPass (escapeAngle md)) :=
      mid_italicPass (by decide) (by decide) h2
    have h4 : "&lt;script&gt;".toList <:+:
        markPass (italicPass (boldPass (escapeAngle md))) :=
      mid_markPassF _ _ (by decide) (by decide) h3
    have h5 : "&lt;script&gt;".toList <:+:
        linkPass (markPass (italicPass (boldPass (escapeAngle md)))) :=
      mid_linkPassF _ _ (by decide) (by decide) (by decide) (by decide) (by decide)
        (by decide) h4
    have h6 : "&lt;script&gt;".toList <:+:
        convertTables (linkPass (markPass (italicPass (boldPass (escapeAngle md))))) :=
      mid_convertTables (by decide) (by decide) (by decide) (by decide) h5
    unfold parseMarkdown
    rw [hmd]
    exact h6
  · intro hcon
    exact lsc_parseMarkdown md (mid_trans (pre_mid (by decide)) hcon)

/-- Witness for C6 at the concrete input `<script>`. -/
theorem parseMarkdown_escapes_script_witness :
    "<script>".toList <:+: "<script>".toList ∧
      ("&lt;script&gt;".toList <:+: parseMarkdown ("<script>".toList) ∧
        ¬ "<script>".toList <:+: parseMarkdown ("<script>".toList)) :=
  ⟨by decide, parseMarkdown_escapes_script (by decide)⟩
